import Mathlib

/-!
Verification of the RFC 8785 JSON canonicalization codec implemented in
`src/canonicalize.py` of the keon-sdk-python repository.

The Python values handled by the codec are modelled by the closed inductive
type `JValue`: Python strings are sequences of Unicode code points
(`List Nat`), Python `int` is `Int`, and Python `float` is `PyFloat` (NaN,
signed infinity, or a finite value represented by its exact rational value;
`-0.0` has rational value `0`, which is faithful because the code only ever
compares a float with `0.0`, truncates it, or hands it to `repr`).

Two external dependencies of the code are kept as parameters:
  * `nfc` models `unicodedata.normalize("NFC", ·)` (an external library);
    a small concrete instance `nfcModel` is provided for witnesses.
  * `fr` models `repr` on non-integer finite floats (IEEE-754 shortest
    round-trip printing, an external floating-point facility).
Everything else is translated directly from the source.
-/

namespace KeonJCS

/-- Code points of a Lean string literal, used to write expected outputs. -/
def cps (s : String) : List Nat := s.toList.map (fun c => c.toNat)

/-- Decimal digits of a natural number, least fuel `n + 1` always suffices.
Models Python `str` on a non-negative `int`. -/
def natToDecAux : Nat → Nat → List Nat
  | 0, _ => []
  | fuel + 1, n => if n < 10 then [48 + n] else natToDecAux fuel (n / 10) ++ [48 + n % 10]

/-- Decimal digit string (as code points) of a natural number. -/
def natToDec (n : Nat) : List Nat := natToDecAux (n + 1) n

/-- Models Python `str` on an `int`: minus sign followed by decimal digits. -/
def intToDec (n : Int) : List Nat := if n < 0 then 45 :: natToDec n.natAbs else natToDec n.toNat

/-- Value of a list of decimal digit code points. -/
def digitsVal (ds : List Nat) : Nat := ds.foldl (fun a c => a * 10 + (c - 48)) 0

/-- Lowercase hexadecimal digit for a value below 16, as in Python `f"\x7bcode:04x\x7d"`. -/
def hexDigitChar (n : Nat) : Nat := if n < 10 then 48 + n else 87 + n

/-- Four lowercase hex digits of a code point below 0x10000. -/
def hex4 (c : Nat) : List Nat :=
  [hexDigitChar (c / 4096 % 16), hexDigitChar (c / 256 % 16),
   hexDigitChar (c / 16 % 16), hexDigitChar (c % 16)]

/-- Translation of the per-character escape cascade in `_canonicalize_string`
(`src/canonicalize.py` lines 110-133). -/
def escChar (c : Nat) : List Nat :=
  if c = 34 then [92, 34]
  else if c = 92 then [92, 92]
  else if c = 8 then [92, 98]
  else if c = 12 then [92, 102]
  else if c = 10 then [92, 110]
  else if c = 13 then [92, 114]
  else if c = 9 then [92, 116]
  else if c < 32 then [92, 117] ++ hex4 c
  else [c]

/-- Escaped body of a string: the loop of `_canonicalize_string`. -/
def escBody (s : List Nat) : List Nat := s.flatMap escChar

/-- Translation of `_canonicalize_string`: NFC-normalize, then escape and quote. -/
def canonicalize_string (nfc : List Nat → List Nat) (s : List Nat) : List Nat :=
  [34] ++ escBody (nfc s) ++ [34]

/-- Model of a Python `float`: NaN, a signed infinity, or a finite value given
by its exact rational value (`-0.0` is `finite 0`). -/
inductive PyFloat where
  | nan
  | inf (neg : Bool)
  | finite (q : ℚ)
deriving DecidableEq, Repr

/-- Model of the JSON-serializable Python values accepted by the codec.
Python `dict` objects become insertion-ordered association lists. -/
inductive JValue where
  | null
  | bool (b : Bool)
  | int (n : Int)
  | float (f : PyFloat)
  | str (s : List Nat)
  | arr (elems : List JValue)
  | obj (pairs : List (List Nat × JValue))

/-- Python `s.endswith(".0")` followed by `s[:-2]`, from `_canonicalize_number`. -/
def stripDot0 (s : List Nat) : List Nat :=
  if s.drop (s.length - 2) = [46, 48] then s.take (s.length - 2) else s

/-- Translation of the `float` branch of `_canonicalize_number`
(`src/canonicalize.py` lines 142-160).  `q.den = 1` is Python's
`num == int(num)` and `q.num` is `int(num)` for such `q`; `fr` models `repr`. -/
def canonicalize_number_float (fr : ℚ → List Nat) : PyFloat → Except String (List Nat)
  | .nan => .error ("ValueError: NaN and Infinity are not valid JSON numbers")
  | .inf _ => .error ("ValueError: NaN and Infinity are not valid JSON numbers")
  | .finite q =>
    if q = 0 then .ok (cps ("0"))
    else if q.den = 1 ∧ |q| ≤ 2 ^ 53 then .ok (intToDec q.num)
    else .ok (stripDot0 (fr q))

/-- Translation of `_utf16_sort_key` (`src/canonicalize.py` lines 192-211). -/
def utf16_sort_key (s : List Nat) : List Nat :=
  s.flatMap (fun code =>
    if code < 65536 then [code]
    else [55296 + (code - 65536) >>> 10, 56320 + ((code - 65536) &&& 1023)])

/-- Lexicographic strict comparison of integer lists; models Python `list.__lt__`
on the results of `_utf16_sort_key`. -/
def listLt : List Nat → List Nat → Bool
  | [], [] => false
  | [], _ :: _ => true
  | _ :: _, [] => false
  | a :: as, b :: bs => if a < b then true else if b < a then false else listLt as bs

/-- Strict UTF-16 code-unit order on strings, the order `keys.sort` realizes. -/
def utf16lt (a b : List Nat) : Bool := listLt (utf16_sort_key a) (utf16_sort_key b)

/-- Total preorder used by the stable sort: not strictly greater. -/
def utf16le (a b : List Nat) : Bool := ! utf16lt b a

/-- Stable insertion of one element: placed before the first element it is
less-or-equal to. -/
def sIns {α : Type} (le : α → α → Bool) (x : α) : List α → List α
  | [] => [x]
  | y :: ys => if le x y then x :: y :: ys else y :: sIns le x ys

/-- Stable ascending sort; models Python `list.sort` (Timsort), which is
stable with respect to the same total preorder, hence produces the same list. -/
def sSort {α : Type} (le : α → α → Bool) : List α → List α
  | [] => []
  | x :: xs => sIns le x (sSort le xs)

/-- The sorted list of NFC-normalized keys computed by `_canonicalize_object`
(`src/canonicalize.py` lines 175-178). -/
def objKeyOrder (nfc : List Nat → List Nat) (ps : List (List Nat × JValue)) : List (List Nat) :=
  sSort utf16le (ps.map (fun p => nfc p.1))

/-- The member-emission loop of `_canonicalize_object` (lines 180-187): for
each sorted key, find the first original key whose NFC form matches, look the
value up in the dict, and emit `"key":value`.  The values arrive already
paired with their (lazily unused) canonicalization results, which preserves
the source's behavior of only forcing the looked-up values, in sorted order. -/
def canonMembers (nfc : List Nat → List Nat)
    (cps' : List (List Nat × Except String (List Nat))) :
    List (List Nat) → Except String (List (List Nat))
  | [] => .ok []
  | key :: rest => do
      let okey := match List.find? (fun p => nfc p.1 = key) cps' with
                  | some p => p.1
                  | none => key
      match List.find? (fun p => p.1 = okey) cps' with
      | none => .error ("KeyError")
      | some p => do
          let cv ← p.2
          let ms ← canonMembers nfc cps' rest
          pure ((canonicalize_string nfc key ++ [58] ++ cv) :: ms)

mutual
/-- Translation of `_canonicalize_value` (`src/canonicalize.py` lines 81-101)
together with `_canonicalize_array` and `_canonicalize_object`.  The `TypeError`
branch of the source is unreachable here because `JValue` is closed. -/
def canonicalize_value (nfc : List Nat → List Nat) (fr : ℚ → List Nat) :
    JValue → Except String (List Nat)
  | .null => .ok (cps ("null"))
  | .bool b => .ok (cps (if b then "true" else "false"))
  | .int n => .ok (intToDec n)
  | .float f => canonicalize_number_float fr f
  | .str s => .ok (canonicalize_string nfc s)
  | .arr xs =>
      (canonElems nfc fr xs).bind (fun es =>
        .ok ([91] ++ List.intercalate [44] es ++ [93]))
  | .obj ps =>
      (canonMembers nfc (canonPairs nfc fr ps) (objKeyOrder nfc ps)).bind (fun ms =>
        .ok ([123] ++ List.intercalate [44] ms ++ [125]))

/-- Elementwise canonicalization of `_canonicalize_array` (lines 166-169). -/
def canonElems (nfc : List Nat → List Nat) (fr : ℚ → List Nat) :
    List JValue → Except String (List (List Nat))
  | [] => .ok []
  | x :: xs =>
      (canonicalize_value nfc fr x).bind (fun c =>
        (canonElems nfc fr xs).bind (fun cs => .ok (c :: cs)))

/-- Pairs each original key with the canonicalization of its value, feeding
`canonMembers`. -/
def canonPairs (nfc : List Nat → List Nat) (fr : ℚ → List Nat) :
    List (List Nat × JValue) → List (List Nat × Except String (List Nat))
  | [] => []
  | p :: ps => (p.1, canonicalize_value nfc fr p.2) :: canonPairs nfc fr ps
end

/-- Translation of `canonicalize_to_string` (`src/canonicalize.py` lines 37-47). -/
def canonicalize_to_string (nfc : List Nat → List Nat) (fr : ℚ → List Nat)
    (v : JValue) : Except String (List Nat) :=
  canonicalize_value nfc fr v

/-- UTF-8 bytes of one code point; Python `str.encode("utf-8")` rejects
surrogates, and code points above 0x10FFFF cannot occur in a Python `str`. -/
def utf8EncChar (c : Nat) : Except String (List Nat) :=
  if c < 128 then .ok [c]
  else if c < 2048 then .ok [192 + c / 64, 128 + c % 64]
  else if c < 65536 then
    if 55296 ≤ c ∧ c < 57344 then .error ("UnicodeEncodeError: surrogates not allowed")
    else .ok [224 + c / 4096, 128 + c / 64 % 64, 128 + c % 64]
  else if c < 1114112 then
    .ok [240 + c / 262144, 128 + c / 4096 % 64, 128 + c / 64 % 64, 128 + c % 64]
  else .error ("ValueError: code point out of range")

/-- Models Python `str.encode("utf-8")`. -/
def utf8Encode : List Nat → Except String (List Nat)
  | [] => .ok []
  | c :: rest =>
      (utf8EncChar c).bind (fun bs => (utf8Encode rest).bind (fun brest => .ok (bs ++ brest)))

/-- Models Python `bytes.decode("utf-8")`: a strict, validating UTF-8 decoder
rejecting overlong forms, surrogates, and truncated sequences. -/
def utf8Decode : List Nat → Except String (List Nat)
  | [] => .ok []
  | b :: rest =>
    if b < 128 then (utf8Decode rest).map (fun l => b :: l)
    else if b < 194 then .error ("UnicodeDecodeError")
    else if b < 224 then
      match rest with
      | b2 :: r2 =>
          if 128 ≤ b2 ∧ b2 < 192 then
            (utf8Decode r2).map (fun l => ((b - 192) * 64 + (b2 - 128)) :: l)
          else .error ("UnicodeDecodeError")
      | [] => .error ("UnicodeDecodeError")
    else if b < 240 then
      match rest with
      | b2 :: b3 :: r3 =>
          if (if b = 224 then 160 ≤ b2 ∧ b2 < 192
              else if b = 237 then 128 ≤ b2 ∧ b2 < 160
              else 128 ≤ b2 ∧ b2 < 192) ∧ 128 ≤ b3 ∧ b3 < 192 then
            (utf8Decode r3).map (fun l =>
              ((b - 224) * 4096 + (b2 - 128) * 64 + (b3 - 128)) :: l)
          else .error ("UnicodeDecodeError")
      | _ => .error ("UnicodeDecodeError")
    else if b < 245 then
      match rest with
      | b2 :: b3 :: b4 :: r4 =>
          if (if b = 240 then 144 ≤ b2 ∧ b2 < 192
              else if b = 244 then 128 ≤ b2 ∧ b2 < 144
              else 128 ≤ b2 ∧ b2 < 192) ∧ 128 ≤ b3 ∧ b3 < 192 ∧ 128 ≤ b4 ∧ b4 < 192 then
            (utf8Decode r4).map (fun l =>
              ((b - 240) * 262144 + (b2 - 128) * 4096 + (b3 - 128) * 64 + (b4 - 128)) :: l)
          else .error ("UnicodeDecodeError")
      | _ => .error ("UnicodeDecodeError")
    else .error ("UnicodeDecodeError")

/-- Translation of `canonicalize` (`src/canonicalize.py` lines 24-34):
canonical string, UTF-8 encoded. -/
def canonicalize (nfc : List Nat → List Nat) (fr : ℚ → List Nat)
    (v : JValue) : Except String (List Nat) :=
  (canonicalize_to_string nfc fr v).bind utf8Encode

/-- JSON whitespace, as in Python's `json` module. -/
def isWs (c : Nat) : Bool := c = 32 || c = 9 || c = 10 || c = 13

/-- Skip leading JSON whitespace. -/
def skipWs : List Nat → List Nat
  | c :: rest => if isWs c then skipWs rest else c :: rest
  | [] => []

/-- Hexadecimal digit value, both cases, as accepted by `\uXXXX` escapes. -/
def hexVal (c : Nat) : Option Nat :=
  if 48 ≤ c ∧ c ≤ 57 then some (c - 48)
  else if 97 ≤ c ∧ c ≤ 102 then some (c - 87)
  else if 65 ≤ c ∧ c ≤ 70 then some (c - 55)
  else none

/-- Continuation after a `\uXXXX` escape whose value `u` is a high
surrogate: a following valid `\u` low-surrogate escape combines into one
supplementary code point; a following `\u` escape with bad hex digits is an
error; anything else keeps the lone high surrogate and parsing resumes. -/
def escSurr (pf : List Nat → Option (List Nat × List Nat))
    (u : Nat) (r : List Nat) : Option (List Nat × List Nat) :=
  match r with
  | 92 :: 117 :: g1 :: g2 :: g3 :: g4 :: r2 =>
    match hexVal g1, hexVal g2, hexVal g3, hexVal g4 with
    | some e1, some e2, some e3, some e4 =>
      let u2 := e1 * 4096 + e2 * 256 + e3 * 16 + e4
      if 56320 ≤ u2 ∧ u2 < 57344 then
        (pf r2).map (fun p =>
          ((65536 + (u - 55296) * 1024 + (u2 - 56320)) :: p.1, p.2))
      else (pf (92 :: 117 :: g1 :: g2 :: g3 :: g4 :: r2)).map
        (fun p => (u :: p.1, p.2))
    | _, _, _, _ => none
  | 92 :: 117 :: _ => none
  | _ => (pf r).map (fun p => (u :: p.1, p.2))

/-- A `\uXXXX` escape: four hex digits, then possibly a surrogate pair. -/
def escU (pf : List Nat → Option (List Nat × List Nat))
    (r : List Nat) : Option (List Nat × List Nat) :=
  match r with
  | h1 :: h2 :: h3 :: h4 :: r' =>
    match hexVal h1, hexVal h2, hexVal h3, hexVal h4 with
    | some d1, some d2, some d3, some d4 =>
      let u := d1 * 4096 + d2 * 256 + d3 * 16 + d4
      if 55296 ≤ u ∧ u < 56320 then escSurr pf u r'
      else (pf r').map (fun p => (u :: p.1, p.2))
    | _, _, _, _ => none
  | _ => none

def escPayload (pf : List Nat → Option (List Nat × List Nat))
    (rest : List Nat) : Option (List Nat × List Nat) :=
  match rest with
  | [] => none
  | e :: r =>
    if e = 34 then (pf r).map (fun p => (34 :: p.1, p.2))
    else if e = 92 then (pf r).map (fun p => (92 :: p.1, p.2))
    else if e = 47 then (pf r).map (fun p => (47 :: p.1, p.2))
    else if e = 98 then (pf r).map (fun p => (8 :: p.1, p.2))
    else if e = 102 then (pf r).map (fun p => (12 :: p.1, p.2))
    else if e = 110 then (pf r).map (fun p => (10 :: p.1, p.2))
    else if e = 114 then (pf r).map (fun p => (13 :: p.1, p.2))
    else if e = 116 then (pf r).map (fun p => (9 :: p.1, p.2))
    else if e = 117 then escU pf r
    else none

/-- Modelled from the spec: body of a JSON string literal as read by the
delegated standard parser (`json.loads`, not part of `src/`): ends at the
closing quote, decodes the eight simple escapes plus `\uXXXX` via
`escPayload`, rejects raw control characters, and keeps every other code
point literally.  Each step consumes at least one input character, so the
fuel supplied by `parseStrBody` always suffices. -/
def parseStrBodyF : Nat → List Nat → Option (List Nat × List Nat)
  | 0, _ => none
  | fuel + 1, l =>
    match l with
    | [] => none
    | c :: rest =>
      if c = 34 then some ([], rest)
      else if c = 92 then escPayload (parseStrBodyF fuel) rest
      else if c < 32 then none
      else (parseStrBodyF fuel rest).map (fun p => (c :: p.1, p.2))

/-- String-literal body reader with self-computed, always-sufficient fuel. -/
def parseStrBody (l : List Nat) : Option (List Nat × List Nat) :=
  parseStrBodyF (l.length + 1) l

/-- Maximal run of decimal digits. -/
def scanDigits : List Nat → (List Nat × List Nat)
  | c :: rest =>
      if 48 ≤ c ∧ c ≤ 57 then
        let p := scanDigits rest
        (c :: p.1, p.2)
      else ([], c :: rest)
  | [] => ([], [])

/-- Integer part of the JSON number grammar: `0` or a nonzero digit followed
by digits. -/
def parseIntPart : List Nat → Option (List Nat × List Nat)
  | [] => none
  | c :: rest =>
      if c = 48 then some ([48], rest)
      else if 49 ≤ c ∧ c ≤ 57 then
        let p := scanDigits rest
        some (c :: p.1, p.2)
      else none

/-- Leading minus sign of a number literal. -/
def signSplit (l : List Nat) : Bool × List Nat :=
  match l with
  | 45 :: r => (true, r)
  | _ => (false, l)

/-- Optional fraction group `(\.\d+)?`: consumed only when the dot is
followed by at least one digit. -/
def fracPart (l2 : List Nat) : Option (List Nat) × List Nat :=
  match l2 with
  | 46 :: r =>
    match scanDigits r with
    | ([], _) => (none, l2)
    | (ds, r2) => (some ds, r2)
  | _ => (none, l2)

/-- Optional exponent group `([eE][-+]?\d+)?`: consumed only when at least
one digit follows the optional sign. -/
def expPart (l3 : List Nat) : Option (Bool × List Nat) × List Nat :=
  match l3 with
  | 101 :: r | 69 :: r =>
    let es : Bool × List Nat :=
      match r with
      | 45 :: r2 => (true, r2)
      | 43 :: r2 => (false, r2)
      | _ => (false, r)
    match scanDigits es.2 with
    | ([], _) => (none, l3)
    | (ds, r2) => (some (es.1, ds), r2)
  | _ => (none, l3)

/-- Modelled from the spec: the number production of the delegated parser,
Python regex `-?(0|[1-9]\d*)(\.\d+)?([eE][-+]?\d+)?`; an integer literal
yields a Python `int`, anything else a `float`.  The float value is modelled
as the exact rational value of the literal (the binary rounding performed by
Python's `float` is outside the model and immaterial to the claims). -/
def parseNumber (l : List Nat) : Option (JValue × List Nat) :=
  let sign := signSplit l
  match parseIntPart sign.2 with
  | none => none
  | some (ip, l2) =>
    let fp := fracPart l2
    let ep := expPart fp.2
    match fp.1, ep.1 with
    | none, none =>
        let n : Int := Int.ofNat (digitsVal ip)
        some (.int (if sign.1 then -n else n), ep.2)
    | fd, ed =>
        let base : ℚ := (digitsVal ip : ℚ) +
          (match fd with
           | some ds => (digitsVal ds : ℚ) / 10 ^ ds.length
           | none => 0)
        let scaled : ℚ :=
          match ed with
          | some (eneg, ds) =>
              if eneg then base / 10 ^ digitsVal ds else base * 10 ^ digitsVal ds
          | none => base
        some (.float (.finite (if sign.1 then -scaled else scaled)), ep.2)

/-- Modelled from the spec: the non-standard constants `NaN`, `Infinity`,
`-Infinity` accepted by `json.loads` by default. -/
def parseConstant : List Nat → Option (JValue × List Nat)
  | 78 :: 97 :: 78 :: rest => some (.float .nan, rest)
  | 73 :: 110 :: 102 :: 105 :: 110 :: 105 :: 116 :: 121 :: rest =>
      some (.float (.inf false), rest)
  | 45 :: 73 :: 110 :: 102 :: 105 :: 110 :: 105 :: 116 :: 121 :: rest =>
      some (.float (.inf true), rest)
  | _ => none

/-- Insert into the insertion-ordered dict model: replacing an existing key
keeps its original position, as Python `dict` assignment does, so a duplicate
object member silently keeps only the last value. -/
def dictUpsert : List (List Nat × JValue) → List Nat → JValue → List (List Nat × JValue)
  | [], k, v => [(k, v)]
  | p :: rest, k, v => if p.1 = k then (k, v) :: rest else p :: dictUpsert rest k v

/-- Object member loop of the delegated parser, parameterized by the
value reader `pv` for the nested values: quoted key, colon, value, then a
comma continuing the loop or a closing brace; duplicate keys resolve by
`dictUpsert`, i.e. last value wins.  The loop fuel is self-computed from the
input length by the caller, which always suffices since each member consumes
input. -/
def pMembersF (pv : List Nat → Option (JValue × List Nat)) :
    Nat → List Nat → List (List Nat × JValue) → Option (JValue × List Nat)
  | 0, _, _ => none
  | fuel + 1, l, acc =>
    match l with
    | 34 :: rest =>
      match parseStrBody rest with
      | none => none
      | some (k, r1) =>
        match skipWs r1 with
        | 58 :: r3 =>
          match pv (skipWs r3) with
          | none => none
          | some (v, r4) =>
            let acc' := dictUpsert acc k v
            match skipWs r4 with
            | 44 :: r6 => pMembersF pv fuel (skipWs r6) acc'
            | 125 :: r6 => some (.obj acc', r6)
            | _ => none
        | _ => none
    | _ => none

/-- Array element loop of the delegated parser, parameterized like
`pMembersF`. -/
def pElemsF (pv : List Nat → Option (JValue × List Nat)) :
    Nat → List Nat → List JValue → Option (JValue × List Nat)
  | 0, _, _ => none
  | fuel + 1, l, acc =>
    match pv l with
    | none => none
    | some (v, r1) =>
      match skipWs r1 with
      | 44 :: r3 => pElemsF pv fuel (skipWs r3) (acc ++ [v])
      | 93 :: r3 => some (.arr (acc ++ [v]), r3)
      | _ => none

/-- Object opener: empty object or hand off to the member loop. -/
def pObjStart (pmem : Nat → List Nat → List (List Nat × JValue) → Option (JValue × List Nat))
    (rest : List Nat) : Option (JValue × List Nat) :=
  match skipWs rest with
  | 125 :: r => some (.obj [], r)
  | l1 => pmem (l1.length + 1) l1 []

/-- Array opener: empty array or hand off to the element loop. -/
def pArrStart (pelem : Nat → List Nat → List JValue → Option (JValue × List Nat))
    (rest : List Nat) : Option (JValue × List Nat) :=
  match skipWs rest with
  | 93 :: r => some (.arr [], r)
  | l1 => pelem (l1.length + 1) l1 []

/-- The tail of the literal `null` after its leading `n`. -/
def pNullTail (rest : List Nat) : Option (JValue × List Nat) :=
  match rest with
  | 117 :: 108 :: 108 :: r => some (.null, r)
  | _ => none

/-- The tail of the literal `true` after its leading `t`. -/
def pTrueTail (rest : List Nat) : Option (JValue × List Nat) :=
  match rest with
  | 114 :: 117 :: 101 :: r => some (.bool true, r)
  | _ => none

/-- The tail of the literal `false` after its leading `f`. -/
def pFalseTail (rest : List Nat) : Option (JValue × List Nat) :=
  match rest with
  | 97 :: 108 :: 115 :: 101 :: r => some (.bool false, r)
  | _ => none

/-- Number, then the non-standard constants, as `json.loads` tries them. -/
def pNumOrConst (l : List Nat) : Option (JValue × List Nat) :=
  match parseNumber l with
  | some r => some r
  | none => parseConstant l

/-- Modelled from the spec: the value dispatch of the delegated `json.loads`
scanner.  Fuel only needs to exceed the nesting depth; callers supply the
input length, which always suffices. -/
def pVal : Nat → List Nat → Option (JValue × List Nat)
  | 0, _ => none
  | fuel + 1, l =>
    match l with
    | [] => none
    | c :: rest =>
      if c = 34 then (parseStrBody rest).map (fun p => (.str p.1, p.2))
      else if c = 123 then pObjStart (pMembersF (pVal fuel)) rest
      else if c = 91 then pArrStart (pElemsF (pVal fuel)) rest
      else if c = 110 then pNullTail rest
      else if c = 116 then pTrueTail rest
      else if c = 102 then pFalseTail rest
      else pNumOrConst (c :: rest)

/-- Modelled from the spec: `json.loads` on already-decoded text — skip
leading whitespace, read one value, and require only whitespace to remain. -/
def loads (text : List Nat) : Except String JValue :=
  match pVal (text.length + 1) (skipWs text) with
  | none => .error ("json.JSONDecodeError: Expecting value")
  | some (v, rest) =>
      if skipWs rest = [] then .ok v else .error ("json.JSONDecodeError: Extra data")

/-- Translation of `canonicalize_bytes` (`src/canonicalize.py` lines 50-61):
UTF-8 decode, parse with the delegated parser, re-canonicalize. -/
def canonicalize_bytes (nfc : List Nat → List Nat) (fr : ℚ → List Nat)
    (json_bytes : List Nat) : Except String (List Nat) :=
  (utf8Decode json_bytes).bind (fun text =>
    (loads text).bind (fun v => canonicalize nfc fr v))

/-- Translation of `validate_integrity` (`src/canonicalize.py` lines 64-78):
catch every error, compare bytes. -/
def validate_integrity (nfc : List Nat → List Nat) (fr : ℚ → List Nat)
    (json_bytes : List Nat) : Bool :=
  match canonicalize_bytes nfc fr json_bytes with
  | .ok canonical => decide (json_bytes = canonical)
  | .error _ => false

/-- Modelled from the spec: a concrete fragment of Unicode NFC used for
witnesses.  It implements the standard composition U+0065 U+0301 (e followed
by combining acute) -> U+00E9 (é) and leaves every other sequence unchanged,
which agrees with `unicodedata.normalize("NFC", ·)` on all strings appearing
in the concrete theorems below. -/
def nfcModel : List Nat → List Nat
  | 101 :: 769 :: rest => 233 :: nfcModel rest
  | c :: rest => c :: nfcModel rest
  | [] => []

/-- Nested singleton arrays of the given depth around `null`, the inputs used
to probe recursion-depth behavior. -/
def nestedArr : Nat → JValue
  | 0 => .null
  | n + 1 => .arr [nestedArr n]

/-! ### Decimal rendering lemmas -/

theorem digitsVal_append_one (a : List Nat) (d : Nat) :
    digitsVal (a ++ [d]) = digitsVal a * 10 + (d - 48) := by
  simp [digitsVal, List.foldl_append]

theorem natToDecAux_spec : ∀ fuel n, n < fuel →
    (∀ d ∈ natToDecAux fuel n, 48 ≤ d ∧ d ≤ 57) ∧
    digitsVal (natToDecAux fuel n) = n ∧
    natToDecAux fuel n ≠ [] := by
  intro fuel
  induction fuel with
  | zero => intro n h; omega
  | succ fuel ih =>
    intro n h
    by_cases hn : n < 10
    · refine ⟨?_, ?_, ?_⟩ <;> (simp [natToDecAux, hn, digitsVal]; try omega)
    · have hrec := ih (n / 10) (by omega)
      refine ⟨?_, ?_, ?_⟩
      · simp only [natToDecAux, if_neg hn]
        intro d hd
        rcases List.mem_append.1 hd with h1 | h2
        · exact hrec.1 d h1
        · simp at h2; omega
      · simp only [natToDecAux, if_neg hn, digitsVal_append_one, hrec.2.1]
        omega
      · simp [natToDecAux, hn]

theorem natToDec_digits (n : Nat) : ∀ d ∈ natToDec n, 48 ≤ d ∧ d ≤ 57 :=
  (natToDecAux_spec (n + 1) n (Nat.lt_succ_self n)).1

theorem natToDec_val (n : Nat) : digitsVal (natToDec n) = n :=
  (natToDecAux_spec (n + 1) n (Nat.lt_succ_self n)).2.1

theorem natToDec_ne_nil (n : Nat) : natToDec n ≠ [] :=
  (natToDecAux_spec (n + 1) n (Nat.lt_succ_self n)).2.2

/-! ### Claim theorems: number formatting -/

/-- C8: the number formatter fails exactly on NaN and on ±Infinity; every
finite float and every integer formats without an error, whatever the
`repr` model is. -/
theorem c8_format_error_iff_nonfinite (fr : ℚ → List Nat) :
    (∀ f : PyFloat, (∃ e, canonicalize_number_float fr f = .error e) ↔
        (f = .nan ∨ f = .inf true ∨ f = .inf false)) ∧
    (∀ q : ℚ, ∃ s, canonicalize_number_float fr (.finite q) = .ok s) ∧
    (∀ (nfc : List Nat → List Nat) (n : Int),
        canonicalize_value nfc fr (.int n) = .ok (intToDec n)) := by
  refine ⟨?_, ?_, ?_⟩
  · intro f
    cases f with
    | nan => simp [canonicalize_number_float]
    | inf b => cases b <;> simp [canonicalize_number_float]
    | finite q =>
      simp only [canonicalize_number_float]
      constructor
      · rintro ⟨e, he⟩
        split at he
        · exact absurd he (by simp)
        · split at he <;> exact absurd he (by simp)
      · rintro (h | h | h) <;> exact absurd h (by simp)
  · intro q
    simp only [canonicalize_number_float]
    split
    · exact ⟨_, rfl⟩
    · split <;> exact ⟨_, rfl⟩
  · intro nfc n
    rfl

/-- C7: the formatter sends the floating representation of negative zero
(`finite 0`, since `-0.0 == 0.0`) and the integer `-0 = 0` to the literal
`"0"`, and sends every integer-valued float of magnitude at most `2^53`
(boundary included) to the plain base-10 digits of that integer, which are
digit characters only (no decimal point, no exponent) and evaluate back to
the same integer. -/
theorem c7_integer_valued_floats (fr : ℚ → List Nat) :
    canonicalize_number_float fr (.finite 0) = .ok (cps ("0")) ∧
    intToDec 0 = cps ("0") ∧
    (∀ q : ℚ, q.den = 1 → |q| ≤ 2 ^ 53 →
        canonicalize_number_float fr (.finite q) = .ok (intToDec q.num)) ∧
    (∀ n : Nat, (∀ d ∈ natToDec n, 48 ≤ d ∧ d ≤ 57) ∧ digitsVal (natToDec n) = n) := by
  refine ⟨by rfl, by rfl, ?_, fun n => ⟨natToDec_digits n, natToDec_val n⟩⟩
  intro q hden habs
  by_cases hq : q = 0
  · subst hq
    simp [canonicalize_number_float]
    rfl
  · simp [canonicalize_number_float, hq, hden, habs]

/-- Witness for C7 at `q = -5` and at the boundary `q = 2^53`. -/
theorem c7_integer_valued_floats_witness :
    canonicalize_number_float (fun _ => []) (.finite (-5)) = .ok (cps ("-5")) ∧
    canonicalize_number_float (fun _ => []) (.finite (2 ^ 53)) =
      .ok (intToDec (2 ^ 53 : ℚ).num) := by
  constructor
  · have h := (c7_integer_valued_floats (fun _ => [])).2.2.1 (-5) (by decide) (by decide)
    rw [h]; rfl
  · exact (c7_integer_valued_floats (fun _ => [])).2.2.1 (2 ^ 53) (by decide) (by decide)

/-! ### Order lemmas and object-member helpers -/

theorem listLt_irrefl : ∀ a : List Nat, listLt a a = false := by
  intro a
  induction a with
  | nil => rfl
  | cons x xs ih => simp [listLt, ih]

theorem utf16le_refl (a : List Nat) : utf16le a a = true := by
  simp [utf16le, utf16lt, listLt_irrefl]

theorem canonicalize_value_obj (nfc : List Nat → List Nat) (fr : ℚ → List Nat)
    (ps : List (List Nat × JValue)) :
    canonicalize_value nfc fr (.obj ps) =
      (canonMembers nfc (canonPairs nfc fr ps) (objKeyOrder nfc ps)).bind (fun ms =>
        .ok ([123] ++ List.intercalate [44] ms ++ [125])) := rfl

theorem canonMembers_nil (nfc : List Nat → List Nat)
    (cps' : List (List Nat × Except String (List Nat))) :
    canonMembers nfc cps' [] = .ok [] := rfl

theorem canonMembers_step (nfc : List Nat → List Nat)
    (cps' : List (List Nat × Except String (List Nat)))
    (key : List Nat) (rest : List (List Nat)) (k c : List Nat)
    (hfind1 : cps'.find? (fun p => nfc p.1 = key) = some (k, .ok c))
    (hfind2 : cps'.find? (fun p => p.1 = k) = some (k, .ok c)) :
    canonMembers nfc cps' (key :: rest) =
      (canonMembers nfc cps' rest).map (fun ms =>
        (canonicalize_string nfc key ++ [58] ++ c) :: ms) := by
  rw [canonMembers]
  rw [hfind1]
  simp only [hfind2]
  cases h : canonMembers nfc cps' rest <;>
    simp [Bind.bind, Except.bind, Except.map, Pure.pure, Except.pure, h]

/-! ### Claim C2: there is no recursion-depth guard -/

theorem canon_nestedArr (nfc : List Nat → List Nat) (fr : ℚ → List Nat) :
    ∀ n, canonicalize_value nfc fr (nestedArr n) =
      .ok (List.replicate n 91 ++ cps ("null") ++ List.replicate n 93) := by
  intro n
  induction n with
  | zero => rfl
  | succ n ih =>
    show canonicalize_value nfc fr (.arr [nestedArr n]) = _
    rw [canonicalize_value, canonElems, ih, canonElems]
    have h93 : (93 :: List.replicate n 93 : List Nat) = List.replicate n 93 ++ [93] := by
      rw [← List.replicate_succ, List.replicate_succ']
    simp [Except.bind, List.intercalate, List.replicate_succ, h93]

/-- C2 counterexample: a value nested 513 levels deep — beyond the limit the
claim posits — canonicalizes successfully; no `DepthExceededError` exists
anywhere in the code, and no error of any kind is raised. -/
theorem c2_counterexample_depth513 :
    canonicalize_to_string nfcModel (fun _ => []) (nestedArr 513) =
      .ok (List.replicate 513 91 ++ cps ("null") ++ List.replicate 513 93) :=
  canon_nestedArr nfcModel (fun _ => []) 513

/-- C2 amended: the source has no recursion-depth guard and defines no
`DepthExceededError`; encoding a finite value terminates normally at every
nesting depth (in the Python host, exhausting the interpreter stack raises
`RecursionError`, not a codec error). -/
theorem c2_amended_no_guard (nfc : List Nat → List Nat) (fr : ℚ → List Nat) (n : Nat) :
    canonicalize_to_string nfc fr (nestedArr n) =
      .ok (List.replicate n 91 ++ cps ("null") ++ List.replicate n 93) :=
  canon_nestedArr nfc fr n

/-! ### Claim C1: duplicate post-normalization keys are emitted twice -/

/-- C1 amended: when two distinct original keys share one NFC form, the
encoder emits one member per original key — the same normalized key appears
twice in the output — and each occurrence carries the value of the first
original key in insertion order whose NFC form matches, so the second key's
value is silently discarded. -/
theorem c1_amended_collision (nfc : List Nat → List Nat) (fr : ℚ → List Nat)
    (k1 k2 : List Nat) (v1 v2 : JValue) (c1 : List Nat)
    (hnfc : nfc k1 = nfc k2) (hv1 : canonicalize_value nfc fr v1 = .ok c1) :
    canonicalize_value nfc fr (.obj [(k1, v1), (k2, v2)]) =
      .ok ([123] ++ (canonicalize_string nfc (nfc k1) ++ [58] ++ c1) ++ [44] ++
           (canonicalize_string nfc (nfc k1) ++ [58] ++ c1) ++ [125]) := by
  rw [canonicalize_value_obj]
  have hkeys : objKeyOrder nfc [(k1, v1), (k2, v2)] = [nfc k1, nfc k1] := by
    simp only [objKeyOrder, List.map_cons, List.map_nil, ← hnfc]
    rw [sSort, sSort, sSort, sIns, sIns, if_pos (utf16le_refl (nfc k1))]
  have hpairs : canonPairs nfc fr [(k1, v1), (k2, v2)] =
      [(k1, .ok c1), (k2, canonicalize_value nfc fr v2)] := by
    rw [canonPairs, canonPairs, canonPairs, hv1]
  rw [hkeys, hpairs]
  have hfind1 : List.find? (fun p => nfc p.1 = nfc k1)
      [(k1, Except.ok c1), (k2, canonicalize_value nfc fr v2)] = some (k1, .ok c1) := by
    simp [List.find?]
  have hfind2 : List.find? (fun p => p.1 = k1)
      [(k1, Except.ok c1), (k2, canonicalize_value nfc fr v2)] = some (k1, .ok c1) := by
    simp [List.find?]
  rw [canonMembers_step nfc _ _ _ k1 c1 hfind1 hfind2,
    canonMembers_step nfc _ _ _ k1 c1 hfind1 hfind2, canonMembers_nil]
  simp [Except.map, Except.bind, List.intercalate]

/-- Witness for C1: the keys é (U+00E9) and e followed by U+0301 normalize
to the same NFC form, and the encoded object repeats the key with the first
key's value. -/
theorem c1_amended_collision_witness :
    canonicalize_value nfcModel (fun _ => [])
        (.obj [([233], .int 1), ([101, 769], .int 2)]) =
      .ok ([123] ++ (canonicalize_string nfcModel (nfcModel [233]) ++ [58] ++ [49]) ++ [44]
           ++ (canonicalize_string nfcModel (nfcModel [233]) ++ [58] ++ [49]) ++ [125]) :=
  c1_amended_collision nfcModel (fun _ => []) [233] [101, 769] (.int 1) (.int 2) [49]
    rfl rfl

/-- C1 counterexample: two distinct original keys with one NFC form produce
an encoded object that contains the same key twice (`é` appears as a key at
two member positions, both with the first key's value `1`, discarding `2`). -/
theorem c1_counterexample_dup_key :
    ([233] : List Nat) ≠ [101, 769] ∧
    nfcModel [233] = nfcModel [101, 769] ∧
    canonicalize_to_string nfcModel (fun _ => [])
        (.obj [([233], .int 1), ([101, 769], .int 2)]) =
      .ok [123, 34, 233, 34, 58, 49, 44, 34, 233, 34, 58, 49, 125] :=
  ⟨by decide, rfl, rfl⟩

/-! ### Stable sort correctness -/

theorem sIns_perm {α : Type} (le : α → α → Bool) (x : α) :
    ∀ l : List α, (sIns le x l).Perm (x :: l) := by
  intro l
  induction l with
  | nil => rfl
  | cons y ys ih =>
    rw [sIns]
    split
    · rfl
    · exact ((ih.cons y).trans (List.Perm.swap x y ys))

theorem sSort_perm {α : Type} (le : α → α → Bool) :
    ∀ l : List α, (sSort le l).Perm l := by
  intro l
  induction l with
  | nil => rfl
  | cons x xs ih => exact (sIns_perm le x (sSort le xs)).trans (ih.cons x)

theorem mem_sIns {α : Type} (le : α → α → Bool) (x z : α) (l : List α) :
    z ∈ sIns le x l ↔ z = x ∨ z ∈ l := by
  rw [(sIns_perm le x l).mem_iff]
  simp

theorem sIns_pairwise {α : Type} (le : α → α → Bool)
    (htot : ∀ a b, le a b = true ∨ le b a = true)
    (htrans : ∀ a b c, le a b = true → le b c = true → le a c = true)
    (x : α) : ∀ l : List α, l.Pairwise (fun a b => le a b = true) →
      (sIns le x l).Pairwise (fun a b => le a b = true) := by
  intro l
  induction l with
  | nil => intro _; simp [sIns]
  | cons y ys ih =>
    intro hp
    rcases List.pairwise_cons.1 hp with ⟨hy, hys⟩
    rw [sIns]
    split
    · rename_i hxy
      refine List.pairwise_cons.2 ⟨?_, hp⟩
      intro z hz
      rcases List.mem_cons.1 hz with h | h
      · subst h; exact hxy
      · exact htrans x y z hxy (hy z h)
    · rename_i hxy
      have hyx : le y x = true := by
        rcases htot x y with h | h
        · exact absurd h hxy
        · exact h
      refine List.pairwise_cons.2 ⟨?_, ih hys⟩
      intro z hz
      rcases (mem_sIns le x z ys).1 hz with h | h
      · subst h; exact hyx
      · exact hy z h

theorem sSort_pairwise {α : Type} (le : α → α → Bool)
    (htot : ∀ a b, le a b = true ∨ le b a = true)
    (htrans : ∀ a b c, le a b = true → le b c = true → le a c = true) :
    ∀ l : List α, (sSort le l).Pairwise (fun a b => le a b = true) := by
  intro l
  induction l with
  | nil => simp [sSort]
  | cons x xs ih => exact sIns_pairwise le htot htrans x (sSort le xs) ih

/-! ### Lexicographic order on sort keys -/

theorem listLt_trans : ∀ a b c : List Nat,
    listLt a b = true → listLt b c = true → listLt a c = true := by
  intro a
  induction a with
  | nil =>
    intro b c hab hbc
    cases b with
    | nil => simp [listLt] at hab
    | cons y ys =>
      cases c with
      | nil => simp [listLt] at hbc
      | cons z zs => simp [listLt]
  | cons x xs ih =>
    intro b c hab hbc
    cases b with
    | nil => simp [listLt] at hab
    | cons y ys =>
      cases c with
      | nil => simp [listLt] at hbc
      | cons z zs =>
        rw [listLt] at hab hbc ⊢
        split_ifs at hab hbc ⊢ <;> first
          | rfl
          | omega
          | simp at hab hbc
          | exact ih ys zs hab hbc

theorem listLt_asymm : ∀ a b : List Nat, listLt a b = true → listLt b a = false := by
  intro a
  induction a with
  | nil =>
    intro b hab
    cases b with
    | nil => simp [listLt] at hab
    | cons y ys => simp [listLt]
  | cons x xs ih =>
    intro b hab
    cases b with
    | nil => simp [listLt] at hab
    | cons y ys =>
      rw [listLt] at hab ⊢
      split_ifs at hab ⊢ <;> first
        | rfl
        | omega
        | simp at hab
        | exact ih ys hab

theorem listLt_connex : ∀ a b : List Nat,
    listLt a b = false → listLt b a = false → a = b := by
  intro a
  induction a with
  | nil =>
    intro b hab _
    cases b with
    | nil => rfl
    | cons y ys => simp [listLt] at hab
  | cons x xs ih =>
    intro b hab hba
    cases b with
    | nil => simp [listLt] at hba
    | cons y ys =>
      rw [listLt] at hab hba
      split_ifs at hab hba <;> try omega
      have : x = y := by omega
      subst this
      rw [ih ys hab hba]

/-! ### Claim C5: UTF-16 member ordering -/

theorem utf16le_total : ∀ a b : List Nat, utf16le a b = true ∨ utf16le b a = true := by
  intro a b
  unfold utf16le utf16lt
  by_cases h : listLt (utf16_sort_key b) (utf16_sort_key a) = true
  · right
    rw [listLt_asymm _ _ h]
    rfl
  · left
    rw [Bool.not_eq_true] at h
    rw [h]
    rfl

theorem utf16le_trans : ∀ a b c : List Nat,
    utf16le a b = true → utf16le b c = true → utf16le a c = true := by
  intro a b c hab hbc
  unfold utf16le utf16lt at *
  rw [Bool.not_eq_true'] at hab hbc ⊢
  by_contra hca
  rw [Bool.not_eq_false] at hca
  by_cases hcb : listLt (utf16_sort_key c) (utf16_sort_key b) = true
  · rw [hcb] at hbc; exact absurd hbc (by simp)
  · by_cases hbc2 : listLt (utf16_sort_key b) (utf16_sort_key c) = true
    · have : listLt (utf16_sort_key b) (utf16_sort_key a) = true :=
        listLt_trans _ _ _ hbc2 hca
      rw [this] at hab; exact absurd hab (by simp)
    · have heq := listLt_connex _ _ (Bool.not_eq_true _ ▸ hcb : _)
        (by rw [Bool.not_eq_true] at hbc2; exact hbc2)
      rw [← heq] at hab
      rw [hca] at hab
      exact absurd hab (by simp)

def ScalarStr (s : List Nat) : Prop := ∀ c ∈ s, c < 1114112 ∧ ¬(55296 ≤ c ∧ c < 57344)

instance (s : List Nat) : Decidable (ScalarStr s) :=
  inferInstanceAs (Decidable (∀ c ∈ s, c < 1114112 ∧ ¬(55296 ≤ c ∧ c < 57344)))

theorem utf16_sort_key_cons (c : Nat) (s : List Nat) :
    utf16_sort_key (c :: s) =
      (if c < 65536 then [c]
       else [55296 + (c - 65536) >>> 10, 56320 + ((c - 65536) &&& 1023)]) ++
        utf16_sort_key s := by
  simp only [utf16_sort_key, List.flatMap_cons]

theorem shr10 (n : Nat) : n >>> 10 = n / 1024 := by
  rw [Nat.shiftRight_eq_div_pow]

theorem and1023 (n : Nat) : n &&& 1023 = n % 1024 := by
  have h := Nat.and_pow_two_sub_one_eq_mod n 10
  norm_num at h
  exact h

theorem utf16_sort_key_inj : ∀ a b : List Nat, ScalarStr a → ScalarStr b →
    utf16_sort_key a = utf16_sort_key b → a = b := by
  intro a
  induction a with
  | nil =>
    intro b _ _ h
    cases b with
    | nil => rfl
    | cons d bs =>
      rw [utf16_sort_key_cons] at h
      split at h <;> simp [utf16_sort_key] at h
  | cons c as ih =>
    intro b ha hb h
    cases b with
    | nil =>
      rw [utf16_sort_key_cons] at h
      split at h <;> simp [utf16_sort_key] at h
    | cons d bs =>
      have hc := ha c (List.mem_cons_self c as)
      have hd := hb d (List.mem_cons_self d bs)
      have has : ScalarStr as := fun x hx => ha x (List.mem_cons_of_mem c hx)
      have hbs : ScalarStr bs := fun x hx => hb x (List.mem_cons_of_mem d hx)
      rw [utf16_sort_key_cons, utf16_sort_key_cons] at h
      by_cases h1 : c < 65536 <;> by_cases h2 : d < 65536
      · rw [if_pos h1, if_pos h2] at h
        simp only [List.cons_append, List.nil_append, List.cons.injEq] at h
        rw [h.1, ih bs has hbs h.2]
      · rw [if_pos h1, if_neg h2] at h
        simp only [List.cons_append, List.nil_append, List.cons.injEq] at h
        have := h.1
        rw [shr10] at this
        omega
      · rw [if_neg h1, if_pos h2] at h
        simp only [List.cons_append, List.nil_append, List.cons.injEq] at h
        have := h.1
        rw [shr10] at this
        omega
      · rw [if_neg h1, if_neg h2] at h
        simp only [List.cons_append, List.nil_append, List.cons.injEq] at h
        obtain ⟨e1, e2, e3⟩ := h
        rw [shr10 (c - 65536), shr10 (d - 65536)] at e1
        rw [and1023 (c - 65536), and1023 (d - 65536)] at e2
        have : c = d := by omega
        rw [this, ih bs has hbs e3]

theorem listLt_self_append : ∀ a b : List Nat, b ≠ [] → listLt a (a ++ b) = true := by
  intro a
  induction a with
  | nil =>
    intro b hb
    cases b with
    | nil => exact absurd rfl hb
    | cons x xs => rfl
  | cons x xs ih =>
    intro b hb
    rw [List.cons_append, listLt]
    simp only [lt_irrefl, if_false]
    exact ih b hb

theorem utf16_sort_key_append (a b : List Nat) :
    utf16_sort_key (a ++ b) = utf16_sort_key a ++ utf16_sort_key b := by
  simp [utf16_sort_key, List.flatMap_append]

theorem utf16_sort_key_ne_nil (b : List Nat) (hb : b ≠ []) : utf16_sort_key b ≠ [] := by
  cases b with
  | nil => exact absurd rfl hb
  | cons c bs =>
    rw [utf16_sort_key_cons]
    split <;> simp

/-- C5: the emitted member keys of an object are the NFC-normalized original
keys, permuted into an order that is sorted for the UTF-16 code-unit
comparison, and that comparison is a strict total order on distinct scalar
strings in which a strict prefix sorts first. -/
theorem c5_key_order (nfc : List Nat → List Nat) (ps : List (List Nat × JValue)) :
    (objKeyOrder nfc ps).Pairwise (fun a b => utf16le a b = true) ∧
    (objKeyOrder nfc ps).Perm (ps.map (fun p => nfc p.1)) ∧
    (∀ a, utf16lt a a = false) ∧
    (∀ a b c, utf16lt a b = true → utf16lt b c = true → utf16lt a c = true) ∧
    (∀ a b, utf16lt a b = true → utf16lt b a = false) ∧
    (∀ a b, ScalarStr a → ScalarStr b → a ≠ b →
        utf16lt a b = true ∨ utf16lt b a = true) ∧
    (∀ a b, b ≠ [] → utf16lt a (a ++ b) = true) := by
  refine ⟨sSort_pairwise utf16le utf16le_total utf16le_trans _,
    sSort_perm utf16le _, fun a => listLt_irrefl (utf16_sort_key a), ?_, ?_, ?_, ?_⟩
  · exact fun a b c => listLt_trans _ _ _
  · exact fun a b h => listLt_asymm _ _ h
  · intro a b ha hb hne
    by_cases h1 : utf16lt a b = true
    · exact Or.inl h1
    · by_cases h2 : utf16lt b a = true
      · exact Or.inr h2
      · exfalso
        rw [Bool.not_eq_true] at h1 h2
        exact hne (utf16_sort_key_inj a b ha hb (listLt_connex _ _ h1 h2))
  · intro a b hb
    unfold utf16lt
    rw [utf16_sort_key_append]
    exact listLt_self_append _ _ (utf16_sort_key_ne_nil b hb)

/-- Witness for C5: distinct scalar keys are strictly comparable. -/
theorem c5_key_order_witness :
    utf16lt (cps ("A_key")) (cps ("a_key")) = true ∨
    utf16lt (cps ("a_key")) (cps ("A_key")) = true :=
  (c5_key_order nfcModel []).2.2.2.2.2.1 (cps ("A_key")) (cps ("a_key"))
    (by decide) (by decide) (by decide)

/-! ### Claim C10: duplicate raw member names -/

theorem dictUpsert_keeps_last : ∀ (ps : List (List Nat × JValue)) (k : List Nat) (v : JValue),
    (dictUpsert ps k v).find? (fun p => p.1 = k) = some (k, v) := by
  intro ps k v
  induction ps with
  | nil => simp [dictUpsert, List.find?]
  | cons p rest ih =>
    rw [dictUpsert]
    split
    · simp [List.find?]
    · rename_i hne
      rw [List.find?_cons_of_neg, ih]
      simp [hne]

/-- C10 counterexample: on the duplicate-name input `{"a":1,"a":2}` the
validator returns false — the canonical form `{"a":2}` differs from the
input — so such an input can never validate as canonical. -/
theorem c10_counterexample_validator_false :
    validate_integrity nfcModel (fun _ => [])
      [123, 34, 97, 34, 58, 49, 44, 34, 97, 34, 58, 50, 125] = false := rfl

/-- C10 amended: a syntactically valid JSON object with two members of the
same raw name parses without a ParseError; the delegated parser keeps only
the last member's value (`dictUpsert` semantics), the earlier value is
discarded from the canonical output, and `validate_integrity` evaluates the
byte comparison without error — returning false on such input because the
canonical bytes collapse the duplicate member. -/
theorem c10_amended_duplicate_names :
    (∀ (ps : List (List Nat × JValue)) (k : List Nat) (v : JValue),
        (dictUpsert ps k v).find? (fun p => p.1 = k) = some (k, v)) ∧
    loads [123, 34, 97, 34, 58, 49, 44, 34, 97, 34, 58, 50, 125] =
      .ok (.obj [([97], .int 2)]) ∧
    canonicalize_bytes nfcModel (fun _ => [])
        [123, 34, 97, 34, 58, 49, 44, 34, 97, 34, 58, 50, 125] =
      .ok [123, 34, 97, 34, 58, 50, 125] ∧
    validate_integrity nfcModel (fun _ => [])
        [123, 34, 97, 34, 58, 49, 44, 34, 97, 34, 58, 50, 125] = false :=
  ⟨dictUpsert_keeps_last, rfl, rfl, rfl⟩

/-! ### Claims C9 and C4 -/

def escCharSpec (c : Nat) : List Nat :=
  if c = 34 then [92, 34]
  else if c = 92 then [92, 92]
  else if c = 8 then [92, 98]
  else if c = 12 then [92, 102]
  else if c = 10 then [92, 110]
  else if c = 13 then [92, 114]
  else if c = 9 then [92, 116]
  else if c < 32 then [92, 117] ++ hex4 c
  else [c]

theorem hexDigitChar_range (x : Nat) (h : x < 16) :
    (48 ≤ hexDigitChar x ∧ hexDigitChar x ≤ 57) ∨
    (97 ≤ hexDigitChar x ∧ hexDigitChar x ≤ 102) := by
  unfold hexDigitChar
  split <;> omega

/-- C9: on an already-NFC-normalized string the escaper emits a quoted
literal obtained by the claim's per-character table: the two quotes/backslash
and five control shorthands, `\u` plus four lowercase hex digits for every
other code point below U+0020, and every code point U+0020 and above
emitted literally. -/
theorem c9_escaper (nfc : List Nat → List Nat) (s : List Nat) (hnorm : nfc s = s) :
    canonicalize_string nfc s = [34] ++ s.flatMap escCharSpec ++ [34] ∧
    (∀ c, 32 ≤ c → c ≠ 34 → c ≠ 92 → escCharSpec c = [c]) ∧
    escCharSpec 34 = [92, 34] ∧ escCharSpec 92 = [92, 92] ∧
    escCharSpec 8 = [92, 98] ∧ escCharSpec 12 = [92, 102] ∧
    escCharSpec 10 = [92, 110] ∧ escCharSpec 13 = [92, 114] ∧
    escCharSpec 9 = [92, 116] ∧
    (∀ c, c < 32 → c ≠ 8 → c ≠ 12 → c ≠ 10 → c ≠ 13 → c ≠ 9 →
        escCharSpec c = [92, 117] ++ hex4 c ∧
        ∀ d ∈ hex4 c, (48 ≤ d ∧ d ≤ 57) ∨ (97 ≤ d ∧ d ≤ 102)) := by
  have hesc : escChar = escCharSpec := rfl
  refine ⟨?_, ?_, rfl, rfl, rfl, rfl, rfl, rfl, rfl, ?_⟩
  · rw [canonicalize_string, hnorm, escBody, hesc]
  · intro c h1 h2 h3
    unfold escCharSpec
    split_ifs <;> first | rfl | omega
  · intro c h1 h2 h3 h4 h5 h6
    constructor
    · unfold escCharSpec
      split_ifs <;> first | rfl | omega
    · intro d hd
      simp only [hex4, List.mem_cons, List.not_mem_nil, or_false] at hd
      rcases hd with h | h | h | h <;> subst h <;>
        exact hexDigitChar_range _ (Nat.mod_lt _ (by omega))

/-- Witness for C9 on a concrete normalized string containing a quote, a
control character, and a non-ASCII letter. -/
theorem c9_escaper_witness :
    canonicalize_string nfcModel [97, 34, 1, 233] =
      [34] ++ ([97, 34, 1, 233] : List Nat).flatMap escCharSpec ++ [34] :=
  (c9_escaper nfcModel [97, 34, 1, 233] rfl).1

/-- C4: `validate_integrity` is a total Boolean predicate — every parse,
format, or decode error is caught — and it returns true exactly when
`canonicalize_bytes` succeeds with output identical to the input bytes. -/
theorem c4_validator_contract (nfc : List Nat → List Nat) (fr : ℚ → List Nat)
    (raw : List Nat) :
    validate_integrity nfc fr raw = true ↔ canonicalize_bytes nfc fr raw = .ok raw := by
  unfold validate_integrity
  cases h : canonicalize_bytes nfc fr raw with
  | ok c =>
    simp only [decide_eq_true_eq]
    constructor
    · intro he; rw [he]
    · intro he; injection he with he'; rw [he']
  | error e => simp

/-! ### Parser dispatch lemmas -/

theorem pVal_default (fuel : Nat) (c : Nat) (l : List Nat)
    (h34 : c ≠ 34) (h123 : c ≠ 123) (h91 : c ≠ 91)
    (h110 : c ≠ 110) (h116 : c ≠ 116) (h102 : c ≠ 102) :
    pVal (fuel + 1) (c :: l) = pNumOrConst (c :: l) := by
  rw [pVal]
  rw [if_neg h34, if_neg h123, if_neg h91, if_neg h110, if_neg h116, if_neg h102]

theorem parseStrBodyF_lit (fuel : Nat) (c : Nat) (rest : List Nat)
    (h34 : c ≠ 34) (h92 : c ≠ 92) (h32 : 32 ≤ c) :
    parseStrBodyF (fuel + 1) (c :: rest) =
      (parseStrBodyF fuel rest).map (fun p => (c :: p.1, p.2)) := by
  rw [parseStrBodyF]
  rw [if_neg h34, if_neg h92, if_neg (by omega : ¬ c < 32)]

/-! ### String unescape lemmas -/

theorem hexVal_hexDigitChar (x : Nat) (h : x < 16) : hexVal (hexDigitChar x) = some x := by
  unfold hexVal hexDigitChar
  split_ifs <;> first | (congr 1; omega) | omega

theorem escPayload_unicode (pf : List Nat → Option (List Nat × List Nat))
    (c : Nat) (hc : c < 55296) (hc2 : c < 65536) (tail : List Nat) :
    escPayload pf (117 :: (hex4 c ++ tail)) = (pf tail).map (fun p => (c :: p.1, p.2)) := by
  show escPayload pf (117 :: hexDigitChar (c / 4096 % 16) :: hexDigitChar (c / 256 % 16) ::
    hexDigitChar (c / 16 % 16) :: hexDigitChar (c % 16) :: tail) = _
  rw [escPayload]
  norm_num
  rw [escU]
  rw [hexVal_hexDigitChar _ (Nat.mod_lt _ (by omega)),
      hexVal_hexDigitChar _ (Nat.mod_lt _ (by omega)),
      hexVal_hexDigitChar _ (Nat.mod_lt _ (by omega)),
      hexVal_hexDigitChar _ (Nat.mod_lt _ (by omega))]
  simp only []
  rw [if_neg (by omega)]
  have hu : c / 4096 % 16 * 4096 + c / 256 % 16 * 256 + c / 16 % 16 * 16 + c % 16 = c := by
    omega
  rw [hu]

theorem parse_escBody : ∀ (s : List Nat) (fuel : Nat) (rest : List Nat),
    s.length < fuel →
    parseStrBodyF fuel (escBody s ++ 34 :: rest) = some (s, rest) := by
  intro s
  induction s with
  | nil =>
    intro fuel rest hf
    match fuel, hf with
    | fuel + 1, _ =>
      show parseStrBodyF (fuel + 1) (34 :: rest) = some ([], rest)
      rw [parseStrBodyF, if_pos rfl]
  | cons c s' ih =>
    intro fuel rest hf
    match fuel, hf with
    | fuel + 1, hf =>
      have hf' : s'.length < fuel := by simp at hf; omega
      have hbody : escBody (c :: s') = escChar c ++ escBody s' := by
        simp [escBody]
      rw [hbody]
      by_cases h34 : c = 34
      · subst h34
        show parseStrBodyF (fuel + 1) (92 :: 34 :: (escBody s' ++ 34 :: rest)) = _
        rw [parseStrBodyF, if_neg (by omega), if_pos rfl, escPayload, if_pos rfl, ih fuel rest hf']
        rfl
      · by_cases h92 : c = 92
        · subst h92
          show parseStrBodyF (fuel + 1) (92 :: 92 :: (escBody s' ++ 34 :: rest)) = _
          rw [parseStrBodyF, if_neg (by omega), if_pos rfl, escPayload,
            if_neg (by omega), if_pos rfl, ih fuel rest hf']
          rfl
        · by_cases h8 : c = 8
          · subst h8
            show parseStrBodyF (fuel + 1) (92 :: 98 :: (escBody s' ++ 34 :: rest)) = _
            rw [parseStrBodyF, if_neg (by omega), if_pos rfl, escPayload,
              if_neg (by omega), if_neg (by omega), if_neg (by omega), if_pos rfl,
              ih fuel rest hf']
            rfl
          · by_cases h12 : c = 12
            · subst h12
              show parseStrBodyF (fuel + 1) (92 :: 102 :: (escBody s' ++ 34 :: rest)) = _
              rw [parseStrBodyF, if_neg (by omega), if_pos rfl, escPayload,
                if_neg (by omega), if_neg (by omega), if_neg (by omega), if_neg (by omega),
                if_pos rfl, ih fuel rest hf']
              rfl
            · by_cases h10 : c = 10
              · subst h10
                show parseStrBodyF (fuel + 1) (92 :: 110 :: (escBody s' ++ 34 :: rest)) = _
                rw [parseStrBodyF, if_neg (by omega), if_pos rfl, escPayload,
                  if_neg (by omega), if_neg (by omega), if_neg (by omega), if_neg (by omega),
                  if_neg (by omega), if_pos rfl, ih fuel rest hf']
                rfl
              · by_cases h13 : c = 13
                · subst h13
                  show parseStrBodyF (fuel + 1) (92 :: 114 :: (escBody s' ++ 34 :: rest)) = _
                  rw [parseStrBodyF, if_neg (by omega), if_pos rfl, escPayload,
                    if_neg (by omega), if_neg (by omega), if_neg (by omega), if_neg (by omega),
                    if_neg (by omega), if_neg (by omega), if_pos rfl, ih fuel rest hf']
                  rfl
                · by_cases h9 : c = 9
                  · subst h9
                    show parseStrBodyF (fuel + 1) (92 :: 116 :: (escBody s' ++ 34 :: rest)) = _
                    rw [parseStrBodyF, if_neg (by omega), if_pos rfl, escPayload,
                      if_neg (by omega), if_neg (by omega), if_neg (by omega), if_neg (by omega),
                      if_neg (by omega), if_neg (by omega), if_neg (by omega), if_pos rfl,
                      ih fuel rest hf']
                    rfl
                  · by_cases hctl : c < 32
                    · have hesc : escChar c = [92, 117] ++ hex4 c := by
                        rw [escChar, if_neg h34, if_neg h92, if_neg h8, if_neg h12,
                          if_neg h10, if_neg h13, if_neg h9, if_pos hctl]
                      rw [hesc]
                      show parseStrBodyF (fuel + 1)
                        (92 :: 117 :: (hex4 c ++ (escBody s' ++ 34 :: rest))) = _
                      rw [parseStrBodyF, if_neg (by omega), if_pos rfl]
                      have := escPayload_unicode (parseStrBodyF fuel) c (by omega) (by omega)
                        (escBody s' ++ 34 :: rest)
                      rw [show (117 :: (hex4 c ++ (escBody s' ++ 34 :: rest))) =
                        117 :: hex4 c ++ (escBody s' ++ 34 :: rest) from rfl] at this ⊢
                      rw [this, ih fuel rest hf']
                      rfl
                    · have hesc : escChar c = [c] := by
                        rw [escChar, if_neg h34, if_neg h92, if_neg h8, if_neg h12,
                          if_neg h10, if_neg h13, if_neg h9, if_neg hctl]
                      rw [hesc]
                      show parseStrBodyF (fuel + 1) (c :: (escBody s' ++ 34 :: rest)) = _
                      rw [parseStrBodyF_lit fuel c _ h34 h92 (by omega), ih fuel rest hf']
                      rfl

/-! ### Number token round-trip lemmas -/

def NumStop (rest : List Nat) : Prop :=
  ∀ c, rest.head? = some c → ¬(48 ≤ c ∧ c ≤ 57) ∧ c ≠ 46 ∧ c ≠ 101 ∧ c ≠ 69

instance (rest : List Nat) : Decidable (NumStop rest) :=
  inferInstanceAs (Decidable (∀ c, rest.head? = some c → _ ∧ _ ∧ _ ∧ _))

theorem scanDigits_exact : ∀ (ds : List Nat), (∀ d ∈ ds, 48 ≤ d ∧ d ≤ 57) →
    ∀ rest, (∀ c, rest.head? = some c → ¬(48 ≤ c ∧ c ≤ 57)) →
    scanDigits (ds ++ rest) = (ds, rest) := by
  intro ds
  induction ds with
  | nil =>
    intro _ rest hrest
    cases rest with
    | nil => rfl
    | cons c r =>
      have := hrest c rfl
      rw [List.nil_append, scanDigits, if_neg this]
  | cons d ds' ih =>
    intro hds rest hrest
    have hd := hds d (List.mem_cons_self d ds')
    rw [List.cons_append, scanDigits, if_pos hd,
      ih (fun e he => hds e (List.mem_cons_of_mem d he)) rest hrest]

theorem natToDec_structure : ∀ (n : Nat),
    (n = 0 → natToDec n = [48]) ∧
    (1 ≤ n → ∃ d ds, natToDec n = d :: ds ∧ 49 ≤ d ∧ d ≤ 57 ∧
      (∀ e ∈ ds, 48 ≤ e ∧ e ≤ 57)) := by
  have key : ∀ fuel n, n < fuel → 1 ≤ n → ∃ d ds, natToDecAux fuel n = d :: ds ∧
      49 ≤ d ∧ d ≤ 57 ∧ (∀ e ∈ ds, 48 ≤ e ∧ e ≤ 57) := by
    intro fuel
    induction fuel with
    | zero => intro n h; omega
    | succ fuel ih =>
      intro n hlt hpos
      by_cases hn : n < 10
      · exact ⟨48 + n, [], by simp [natToDecAux, hn], by omega, by omega, by simp⟩
      · obtain ⟨d, ds, heq, hd1, hd2, hds⟩ := ih (n / 10) (by omega) (by omega)
        refine ⟨d, ds ++ [48 + n % 10], ?_, hd1, hd2, ?_⟩
        · rw [natToDecAux, if_neg hn, heq]
          rfl
        · intro e he
          rcases List.mem_append.1 he with h | h
          · exact hds e h
          · simp at h; omega
  intro n
  constructor
  · intro h; subst h; rfl
  · intro h
    exact key (n + 1) n (Nat.lt_succ_self n) h

theorem parseIntPart_natToDec (n : Nat) (rest : List Nat)
    (hrest : ∀ c, rest.head? = some c → ¬(48 ≤ c ∧ c ≤ 57)) :
    parseIntPart (natToDec n ++ rest) = some (natToDec n, rest) := by
  by_cases h0 : n = 0
  · subst h0
    rw [(natToDec_structure 0).1 rfl]
    rw [List.cons_append, parseIntPart, if_pos rfl]
    rfl
  · obtain ⟨d, ds, heq, hd1, hd2, hds⟩ := (natToDec_structure n).2 (by omega)
    rw [heq, List.cons_append, parseIntPart, if_neg (by omega), if_pos (by omega)]
    simp only [scanDigits_exact ds hds rest hrest]

theorem fracPart_skip (l2 : List Nat) (h : ∀ c, l2.head? = some c → c ≠ 46) :
    fracPart l2 = (none, l2) := by
  cases l2 with
  | nil => rfl
  | cons c r =>
    have hc : c ≠ 46 := h c rfl
    rw [fracPart]
    intro r' heq
    injection heq with h1 _
    exact hc h1

theorem expPart_skip (l3 : List Nat) (h : ∀ c, l3.head? = some c → c ≠ 101 ∧ c ≠ 69) :
    expPart l3 = (none, l3) := by
  cases l3 with
  | nil => rfl
  | cons c r =>
    have hc := h c rfl
    rw [expPart]
    · intro r' heq
      injection heq with h1 _
      exact hc.1 h1
    · intro r' heq
      injection heq with h1 _
      exact hc.2 h1

theorem signSplit_pos (l : List Nat) (h : ∀ c, l.head? = some c → c ≠ 45) :
    signSplit l = (false, l) := by
  cases l with
  | nil => rfl
  | cons c r =>
    have hc : c ≠ 45 := h c rfl
    rw [signSplit]
    intro r' heq
    injection heq with h1 _
    exact hc h1

theorem parseNumber_int (n : Int) (rest : List Nat) (hstop : NumStop rest) :
    parseNumber (intToDec n ++ rest) = some (.int n, rest) := by
  have hdig : ∀ c, rest.head? = some c → ¬(48 ≤ c ∧ c ≤ 57) :=
    fun c hc => (hstop c hc).1
  have h46 : ∀ c, rest.head? = some c → c ≠ 46 :=
    fun c hc => (hstop c hc).2.1
  have hee : ∀ c, rest.head? = some c → c ≠ 101 ∧ c ≠ 69 :=
    fun c hc => ⟨(hstop c hc).2.2.1, (hstop c hc).2.2.2⟩
  by_cases hneg : n < 0
  · have hint : intToDec n = 45 :: natToDec n.natAbs := by
      rw [intToDec, if_pos hneg]
    rw [hint, List.cons_append, parseNumber]
    have hsign : signSplit (45 :: (natToDec n.natAbs ++ rest)) =
        (true, natToDec n.natAbs ++ rest) := rfl
    rw [hsign]
    simp only [parseIntPart_natToDec n.natAbs rest hdig, fracPart_skip rest h46,
      expPart_skip rest hee, natToDec_val]
    show some (JValue.int (if true then -Int.ofNat n.natAbs else Int.ofNat n.natAbs), rest) = _
    rw [if_pos rfl]
    have hval : -Int.ofNat n.natAbs = n := by rw [Int.ofNat_eq_coe]; omega
    rw [hval]
  · have hint : intToDec n = natToDec n.toNat := by
      rw [intToDec, if_neg hneg]
    rw [hint, parseNumber]
    have hhead : ∀ c, (natToDec n.toNat ++ rest).head? = some c → c ≠ 45 := by
      intro c hc
      by_cases h0 : n.toNat = 0
      · rw [h0, (natToDec_structure 0).1 rfl] at hc
        simp at hc
        omega
      · obtain ⟨d, ds, heq, hd1, hd2, _⟩ := (natToDec_structure n.toNat).2 (by omega)
        rw [heq] at hc
        simp at hc
        omega
    rw [signSplit_pos _ hhead]
    simp only [parseIntPart_natToDec n.toNat rest hdig, fracPart_skip rest h46,
      expPart_skip rest hee, natToDec_val]
    show some (JValue.int (if false then -Int.ofNat n.toNat else Int.ofNat n.toNat), rest) = _
    rw [if_neg (by simp)]
    have hval : Int.ofNat n.toNat = n := by rw [Int.ofNat_eq_coe]; omega
    rw [hval]

/-! ### Parser value-token lemmas -/

def Delim (rest : List Nat) : Prop :=
  rest = [] ∨ rest.head? = some 44 ∨ rest.head? = some 93 ∨ rest.head? = some 125

theorem delim_numStop (rest : List Nat) (h : Delim rest) : NumStop rest := by
  intro c hc
  rcases h with h | h | h | h
  · subst h; simp at hc
  · rw [h] at hc; injection hc with h1; omega
  · rw [h] at hc; injection hc with h1; omega
  · rw [h] at hc; injection hc with h1; omega

theorem skipWs_noop (l : List Nat) (h : ∀ c, l.head? = some c → isWs c = false) :
    skipWs l = l := by
  cases l with
  | nil => rfl
  | cons c r => rw [skipWs, if_neg (by rw [h c rfl]; simp)]

theorem delim_skipWs (rest : List Nat) (h : Delim rest) : skipWs rest = rest := by
  apply skipWs_noop
  intro c hc
  rcases h with h | h | h | h
  · subst h; simp at hc
  · rw [h] at hc; injection hc with h1; subst h1; rfl
  · rw [h] at hc; injection hc with h1; subst h1; rfl
  · rw [h] at hc; injection hc with h1; subst h1; rfl

theorem pVal_null (fuel : Nat) (rest : List Nat) :
    pVal (fuel + 1) (cps ("null") ++ rest) = some (.null, rest) := by
  rw [show cps ("null") ++ rest = 110 :: 117 :: 108 :: 108 :: rest from rfl, pVal]
  rfl

theorem pVal_true (fuel : Nat) (rest : List Nat) :
    pVal (fuel + 1) (cps ("true") ++ rest) = some (.bool true, rest) := by
  rw [show cps ("true") ++ rest = 116 :: 114 :: 117 :: 101 :: rest from rfl, pVal]
  rfl

theorem pVal_false (fuel : Nat) (rest : List Nat) :
    pVal (fuel + 1) (cps ("false") ++ rest) = some (.bool false, rest) := by
  rw [show cps ("false") ++ rest = 102 :: 97 :: 108 :: 115 :: 101 :: rest from rfl, pVal]
  rfl

theorem escBody_length_ge (s : List Nat) : s.length ≤ (escBody s).length := by
  induction s with
  | nil => simp [escBody]
  | cons c s' ih =>
    have : escBody (c :: s') = escChar c ++ escBody s' := by simp [escBody]
    rw [this, List.length_append, List.length_cons]
    have hc : 1 ≤ (escChar c).length := by
      rw [escChar]
      split_ifs <;> simp [hex4]
    omega

theorem pVal_str (fuel : Nat) (s rest : List Nat) :
    pVal (fuel + 1) (([34] ++ escBody s ++ [34]) ++ rest) = some (.str s, rest) := by
  have hshape : ([34] ++ escBody s ++ [34]) ++ rest = 34 :: (escBody s ++ 34 :: rest) := by
    simp
  rw [hshape, pVal, if_pos rfl]
  rw [show parseStrBody (escBody s ++ 34 :: rest) =
    parseStrBodyF ((escBody s ++ 34 :: rest).length + 1) (escBody s ++ 34 :: rest) from rfl]
  rw [parse_escBody s _ rest (by
    have := escBody_length_ge s
    rw [List.length_append, List.length_cons]
    omega)]
  rfl

theorem pVal_int (fuel : Nat) (n : Int) (rest : List Nat) (hstop : NumStop rest) :
    pVal (fuel + 1) (intToDec n ++ rest) = some (.int n, rest) := by
  have hhead : ∃ c t, intToDec n = c :: t ∧ (c = 45 ∨ (48 ≤ c ∧ c ≤ 57)) := by
    rw [intToDec]
    split_ifs with hneg
    · exact ⟨45, _, rfl, Or.inl rfl⟩
    · by_cases h0 : n.toNat = 0
      · rw [h0, (natToDec_structure 0).1 rfl]
        exact ⟨48, [], rfl, Or.inr (by omega)⟩
      · obtain ⟨d, ds, heq, hd1, hd2, _⟩ := (natToDec_structure n.toNat).2 (by omega)
        exact ⟨d, ds, heq, Or.inr (by omega)⟩
  obtain ⟨c, t, heq, hc⟩ := hhead
  rw [heq, List.cons_append,
    pVal_default fuel c _ (by omega) (by omega) (by omega) (by omega) (by omega) (by omega),
    pNumOrConst, ← List.cons_append, ← heq, parseNumber_int n rest hstop]

/-! ### Loop round-trip lemmas -/

/-- Conditions on the printed form of a non-integer float under which the
delegated parser reads it back as the same float: it is shaped like a number
token and parses, followed by any delimiter, to exactly the value `q`. -/
def FloatTokOK (t : List Nat) (q : ℚ) : Prop :=
  (∃ c t', t = c :: t' ∧ (c = 45 ∨ (48 ≤ c ∧ c ≤ 57))) ∧
  (∀ rest, NumStop rest → parseNumber (t ++ rest) = some (.float (.finite q), rest))

theorem pVal_floatTok (fuel : Nat) (t : List Nat) (q : ℚ) (rest : List Nat)
    (h : FloatTokOK t q) (hstop : NumStop rest) :
    pVal (fuel + 1) (t ++ rest) = some (.float (.finite q), rest) := by
  obtain ⟨⟨c, t', heq, hc⟩, hparse⟩ := h
  rw [heq, List.cons_append,
    pVal_default fuel c _ (by omega) (by omega) (by omega) (by omega) (by omega) (by omega),
    pNumOrConst, ← List.cons_append, ← heq, hparse rest hstop]

theorem intercalate_single (sep : List Nat) (a : List Nat) :
    List.intercalate sep [a] = a := by
  simp [List.intercalate]

theorem intercalate_cons2 (sep a b : List Nat) (l : List (List Nat)) :
    List.intercalate sep (a :: b :: l) = a ++ sep ++ List.intercalate sep (b :: l) := by
  simp [List.intercalate, List.intersperse]

theorem length_le_intercalate (sep : List Nat) :
    ∀ (L : List (List Nat)) (m : List Nat), m ∈ L →
      m.length ≤ (List.intercalate sep L).length := by
  intro L
  induction L with
  | nil => intro m hm; simp at hm
  | cons a l ih =>
    intro m hm
    cases l with
    | nil =>
      simp at hm
      subst hm
      rw [intercalate_single]
    | cons b l' =>
      rw [intercalate_cons2]
      rcases List.mem_cons.1 hm with h | h
      · subst h
        simp [List.length_append]
      · have := ih m h
        simp [List.length_append]
        omega

/-- Per-element conditions for the array loop: each printed element is
nonempty, starts with a non-whitespace character, and re-parses exactly, for
any delimiter-headed continuation. -/
def ItemsOK (pv : List Nat → Option (JValue × List Nat))
    (items : List (JValue × List Nat)) : Prop :=
  ∀ it ∈ items, (∃ c t, it.2 = c :: t ∧ isWs c = false) ∧
    ∀ r', Delim r' → pv (it.2 ++ r') = some (it.1, r')

theorem pElemsF_go (pv : List Nat → Option (JValue × List Nat)) :
    ∀ (items : List (JValue × List Nat)) (first : JValue × List Nat)
      (acc : List JValue) (fuel : Nat) (rest : List Nat),
    ItemsOK pv (first :: items) → items.length < fuel →
    pElemsF pv (fuel + 1)
        (List.intercalate [44] ((first :: items).map Prod.snd) ++ 93 :: rest) acc =
      some (.arr (acc ++ (first :: items).map Prod.fst), rest) := by
  intro items
  induction items with
  | nil =>
    intro first acc fuel rest hok _
    obtain ⟨⟨c, t, heq, hws⟩, hparse⟩ := hok first (List.mem_cons_self _ _)
    rw [List.map_cons, List.map_nil, intercalate_single, pElemsF,
      hparse (93 :: rest) (Or.inr (Or.inr (Or.inl rfl)))]
    rfl
  | cons second items' ih =>
    intro first acc fuel rest hok hfuel
    obtain ⟨⟨c, t, heq, hws⟩, hparse⟩ := hok first (List.mem_cons_self _ _)
    have hok' : ItemsOK pv (second :: items') :=
      fun it hit => hok it (List.mem_cons_of_mem _ hit)
    show pElemsF pv (fuel + 1)
        (List.intercalate [44] (first.2 :: second.2 :: items'.map Prod.snd) ++ 93 :: rest)
        acc = some (.arr (acc ++ (first.1 :: second.1 :: items'.map Prod.fst)), rest)
    rw [intercalate_cons2]
    have hshape : (first.2 ++ [44] ++
        List.intercalate [44] (second.2 :: items'.map Prod.snd)) ++ 93 :: rest =
        first.2 ++ (44 :: (List.intercalate [44] (second.2 :: items'.map Prod.snd)
          ++ 93 :: rest)) := by
      simp
    rw [hshape, pElemsF,
      hparse (44 :: (List.intercalate [44] (second.2 :: items'.map Prod.snd) ++ 93 :: rest))
        (Or.inr (Or.inl rfl))]
    have hnext : ∀ c, (List.intercalate [44] (second.2 :: items'.map Prod.snd)
        ++ 93 :: rest).head? = some c → isWs c = false := by
      obtain ⟨⟨c2, t2, heq2, hws2⟩, _⟩ := hok' second (List.mem_cons_self _ _)
      cases items' with
      | nil =>
        rw [List.map_nil, intercalate_single, heq2]
        intro c hc; injection hc with h1; subst h1; exact hws2
      | cons third rest3 =>
        rw [List.map_cons, intercalate_cons2, heq2]
        intro c hc
        simp at hc
        subst hc
        exact hws2
    show pElemsF pv fuel
        (skipWs (List.intercalate [44] (second.2 :: items'.map Prod.snd) ++ 93 :: rest))
        (acc ++ [first.1]) = _
    rw [skipWs_noop _ hnext]
    match fuel, hfuel with
    | fuel + 1, hfuel =>
      have hres := ih second (acc ++ [first.1]) fuel rest hok' (by simp at hfuel; omega)
      simp only [List.map_cons] at hres
      rw [hres]
      simp

/-- Printed form of one object member: quoted escaped key, colon, value. -/
def memberText (it : (List Nat × JValue) × List Nat) : List Nat :=
  [34] ++ escBody it.1.1 ++ [34] ++ [58] ++ it.2

/-- Per-member conditions for the object loop, mirroring `ItemsOK`. -/
def MItemsOK (pv : List Nat → Option (JValue × List Nat))
    (items : List ((List Nat × JValue) × List Nat)) : Prop :=
  ∀ it ∈ items, (∃ c t, it.2 = c :: t ∧ isWs c = false) ∧
    ∀ r', Delim r' → pv (it.2 ++ r') = some (it.1.2, r')

theorem memberText_step (pv : List Nat → Option (JValue × List Nat))
    (fuel : Nat) (k : List Nat) (v : JValue) (venc : List Nat)
    (acc : List (List Nat × JValue)) (tail : List Nat)
    (hws : ∃ c t, venc = c :: t ∧ isWs c = false)
    (hparse : ∀ r', Delim r' → pv (venc ++ r') = some (v, r'))
    (htail : tail.head? = some 44 ∨ tail.head? = some 125) :
    pMembersF pv (fuel + 1) (memberText ((k, v), venc) ++ tail) acc =
      (match tail with
       | 44 :: r6 => pMembersF pv fuel (skipWs r6) (dictUpsert acc k v)
       | 125 :: r6 => some (.obj (dictUpsert acc k v), r6)
       | _ => none) := by
  have hshape : memberText ((k, v), venc) ++ tail =
      34 :: (escBody k ++ 34 :: (58 :: (venc ++ tail))) := by
    simp [memberText]
  rw [hshape, pMembersF]
  rw [show parseStrBody (escBody k ++ 34 :: (58 :: (venc ++ tail))) =
    parseStrBodyF ((escBody k ++ 34 :: (58 :: (venc ++ tail))).length + 1)
      (escBody k ++ 34 :: (58 :: (venc ++ tail))) from rfl]
  rw [parse_escBody k _ _ (by
    have := escBody_length_ge k
    rw [List.length_append, List.length_cons]
    omega)]
  show (match pv (skipWs (venc ++ tail)) with
        | none => none
        | some (v1, r4) =>
          match skipWs r4 with
          | 44 :: r6 => pMembersF pv fuel (skipWs r6) (dictUpsert acc k v1)
          | 125 :: r6 => some (.obj (dictUpsert acc k v1), r6)
          | _ => none) = _
  obtain ⟨c, t, heqv, hwsc⟩ := hws
  rw [skipWs_noop _ (by intro e he; rw [heqv] at he; simp at he; subst he; exact hwsc)]
  rw [hparse tail (by rcases htail with h | h
                      · exact Or.inr (Or.inl h)
                      · exact Or.inr (Or.inr (Or.inr h)))]
  rcases htail with h | h <;>
    (cases tail with
     | nil => simp at h
     | cons c6 r6 =>
        injection h with h6
        subst h6
        rfl)

theorem memberText_head (it : (List Nat × JValue) × List Nat) :
    ∃ t, memberText it = 34 :: t :=
  ⟨escBody it.1.1 ++ 34 :: 58 :: it.2, by simp [memberText]⟩

theorem pMembersF_go (pv : List Nat → Option (JValue × List Nat)) :
    ∀ (items : List ((List Nat × JValue) × List Nat))
      (first : (List Nat × JValue) × List Nat)
      (acc : List (List Nat × JValue)) (fuel : Nat) (rest : List Nat),
    MItemsOK pv (first :: items) → items.length < fuel →
    pMembersF pv (fuel + 1)
        (List.intercalate [44] ((first :: items).map memberText) ++ 125 :: rest) acc =
      some (.obj (List.foldl (fun d it => dictUpsert d it.1.1 it.1.2)
        acc (first :: items)), rest) := by
  intro items
  induction items with
  | nil =>
    intro first acc fuel rest hok _
    obtain ⟨hws, hparse⟩ := hok first (List.mem_cons_self _ _)
    rw [List.map_cons, List.map_nil, intercalate_single]
    have hstep := memberText_step pv fuel first.1.1 first.1.2 first.2 acc (125 :: rest)
      hws hparse (Or.inr rfl)
    rw [show ((first.1.1, first.1.2), first.2) = first from rfl] at hstep
    rw [hstep]
    rfl
  | cons second items' ih =>
    intro first acc fuel rest hok hfuel
    obtain ⟨hws, hparse⟩ := hok first (List.mem_cons_self _ _)
    have hok' : MItemsOK pv (second :: items') :=
      fun it hit => hok it (List.mem_cons_of_mem _ hit)
    show pMembersF pv (fuel + 1)
        (List.intercalate [44] (memberText first :: memberText second :: items'.map memberText)
          ++ 125 :: rest) acc = _
    rw [intercalate_cons2]
    have hshape : (memberText first ++ [44] ++
        List.intercalate [44] (memberText second :: items'.map memberText)) ++ 125 :: rest =
        memberText first ++ (44 :: (List.intercalate [44]
          (memberText second :: items'.map memberText) ++ 125 :: rest)) := by
      simp
    rw [hshape]
    have hstep := memberText_step pv fuel first.1.1 first.1.2 first.2 acc
      (44 :: (List.intercalate [44] (memberText second :: items'.map memberText) ++ 125 :: rest))
      hws hparse (Or.inl rfl)
    rw [show ((first.1.1, first.1.2), first.2) = first from rfl] at hstep
    rw [hstep]
    show pMembersF pv fuel
        (skipWs (List.intercalate [44] (memberText second :: items'.map memberText)
          ++ 125 :: rest)) (dictUpsert acc first.1.1 first.1.2) = _
    have hnext : ∀ c, (List.intercalate [44] (memberText second :: items'.map memberText)
        ++ 125 :: rest).head? = some c → isWs c = false := by
      obtain ⟨t2, heq2⟩ := memberText_head second
      cases items' with
      | nil =>
        rw [List.map_nil, intercalate_single, heq2]
        intro c hc; injection hc with h1; subst h1; rfl
      | cons third rest3 =>
        rw [List.map_cons, intercalate_cons2, heq2]
        intro c hc
        simp at hc
        subst hc
        rfl
    rw [skipWs_noop _ hnext]
    match fuel, hfuel with
    | fuel + 1, hfuel =>
      have hres := ih second (dictUpsert acc first.1.1 first.1.2) fuel rest hok'
        (by simp at hfuel; omega)
      simp only [List.map_cons] at hres
      rw [hres]
      rfl

/-! ### Dictionary and member-resolution lemmas -/

/-- The conditions under which one canonicalize-then-reparse round trip is
proved: floats must be zero, safe integers, or carry a parseable printed
form, and object keys must stay pairwise distinct after normalization. -/
inductive CanonSafe (nfc : List Nat → List Nat) (fr : ℚ → List Nat) : JValue → Prop
  | null : CanonSafe nfc fr .null
  | bool (b : Bool) : CanonSafe nfc fr (.bool b)
  | int (n : Int) : CanonSafe nfc fr (.int n)
  | floatInt (q : ℚ) : q.den = 1 → |q| ≤ 2 ^ 53 → CanonSafe nfc fr (.float (.finite q))
  | floatRepr (q : ℚ) : ¬(q.den = 1 ∧ |q| ≤ 2 ^ 53) →
      FloatTokOK (stripDot0 (fr q)) q → CanonSafe nfc fr (.float (.finite q))
  | str (s : List Nat) : CanonSafe nfc fr (.str s)
  | arr (xs : List JValue) : (∀ x ∈ xs, CanonSafe nfc fr x) → CanonSafe nfc fr (.arr xs)
  | obj (ps : List (List Nat × JValue)) : (ps.map (fun p => nfc p.1)).Nodup →
      (∀ p ∈ ps, CanonSafe nfc fr p.2) → CanonSafe nfc fr (.obj ps)

theorem sSort_id {α : Type} (le : α → α → Bool) :
    ∀ l : List α, l.Pairwise (fun a b => le a b = true) → sSort le l = l := by
  intro l
  induction l with
  | nil => intro _; rfl
  | cons x xs ih =>
    intro hp
    rcases List.pairwise_cons.1 hp with ⟨hx, hxs⟩
    rw [sSort, ih hxs]
    cases xs with
    | nil => rfl
    | cons y ys => rw [sIns, if_pos (hx y (List.mem_cons_self y ys))]

theorem dictUpsert_fresh : ∀ (d : List (List Nat × JValue)) (k : List Nat) (v : JValue),
    k ∉ d.map Prod.fst → dictUpsert d k v = d ++ [(k, v)] := by
  intro d
  induction d with
  | nil => intro k v _; rfl
  | cons p rest ih =>
    intro k v hk
    simp only [List.map_cons, List.mem_cons] at hk
    push_neg at hk
    rw [dictUpsert, if_neg (fun h => hk.1 h.symm), ih k v hk.2]
    rfl

theorem foldl_dictUpsert_fresh :
    ∀ (items : List ((List Nat × JValue) × List Nat)) (acc : List (List Nat × JValue)),
    (items.map (fun it => it.1.1)).Nodup →
    (∀ it ∈ items, it.1.1 ∉ acc.map Prod.fst) →
    List.foldl (fun d it => dictUpsert d it.1.1 it.1.2) acc items =
      acc ++ items.map (fun it => it.1) := by
  intro items
  induction items with
  | nil => intro acc _ _; simp
  | cons it0 rest ih =>
    intro acc hnodup hfresh
    rw [List.foldl_cons, dictUpsert_fresh acc it0.1.1 it0.1.2
      (hfresh it0 (List.mem_cons_self _ _))]
    rw [List.map_cons] at hnodup
    obtain ⟨hhead, htail⟩ := List.nodup_cons.1 hnodup
    rw [ih (acc ++ [it0.1]) htail ?_]
    · simp
    · intro it hit
      have hne : it.1.1 ≠ it0.1.1 := by
        intro heq
        exact hhead (heq ▸ List.mem_map.2 ⟨it, hit, rfl⟩)
      have hacc := hfresh it (List.mem_cons_of_mem _ hit)
      simp only [List.map_append, List.mem_append]
      rintro (h | h)
      · exact hacc h
      · simp at h
        exact hne (by rw [h])

theorem canonPairs_map (nfc : List Nat → List Nat) (fr : ℚ → List Nat) :
    ∀ ps : List (List Nat × JValue),
      canonPairs nfc fr ps = ps.map (fun p => (p.1, canonicalize_value nfc fr p.2)) := by
  intro ps
  induction ps with
  | nil => rfl
  | cons p rest ih => rw [canonPairs, ih]; rfl

theorem find?_mem_map {α β : Type} [DecidableEq β] :
    ∀ (l : List α) (f : α → β) (k : β), k ∈ l.map f →
      ∃ x, l.find? (fun a => f a = k) = some x ∧ f x = k ∧ x ∈ l := by
  intro l f k
  induction l with
  | nil => intro h; simp at h
  | cons a rest ih =>
    intro h
    by_cases ha : f a = k
    · exact ⟨a, by rw [List.find?_cons_of_pos _ (by simp [ha])], ha, List.mem_cons_self a rest⟩
    · have : k ∈ rest.map f := by
        simp at h
        rcases h with h | h
        · exact absurd h.symm ha
        · simpa using h
      obtain ⟨x, hfind, hfx, hmem⟩ := ih this
      exact ⟨x, by rw [List.find?_cons_of_neg _ (by simp [ha]), hfind],
        hfx, List.mem_cons_of_mem a hmem⟩

/-- In an association list whose keys are distinct, both lookup styles used
by the member loop resolve to the unique entry with the given key. -/
theorem find?_assoc_distinct (nfc : List Nat → List Nat) :
    ∀ (l : List (List Nat × Except String (List Nat))) (k : List Nat)
      (v : Except String (List Nat)),
    (l.map Prod.fst).Nodup → (k, v) ∈ l → (∀ p ∈ l, nfc p.1 = p.1) →
    l.find? (fun p => nfc p.1 = k) = some (k, v) ∧
    l.find? (fun p => p.1 = k) = some (k, v) := by
  intro l
  induction l with
  | nil => intro k v _ hm; simp at hm
  | cons p rest ih =>
    intro k v hnodup hmem hfix
    rw [List.map_cons] at hnodup
    obtain ⟨hhead, htail⟩ := List.nodup_cons.1 hnodup
    rcases List.mem_cons.1 hmem with h | h
    · subst h
      constructor
      · rw [List.find?_cons_of_pos _ (by simp [hfix (k, v) (List.mem_cons_self _ _)])]
      · rw [List.find?_cons_of_pos _ (by simp)]
    · have hkne : p.1 ≠ k := by
        intro heq
        subst heq
        exact hhead (List.mem_map.2 ⟨(p.1, v), h, rfl⟩)
      have hrec := ih k v htail h (fun q hq => hfix q (List.mem_cons_of_mem p hq))
      constructor
      · rw [List.find?_cons_of_neg _ (by
          simp [hfix p (List.mem_cons_self p rest)]
          exact hkne), hrec.1]
      · rw [List.find?_cons_of_neg _ (by simp [hkne]), hrec.2]

/-- Computation of the member loop over a list of already-resolved entries. -/
theorem canonMembers_entries (nfc : List Nat → List Nat)
    (cps' : List (List Nat × Except String (List Nat))) :
    ∀ (entries : List (List Nat × List Nat)),
    (∀ e ∈ entries, cps'.find? (fun p => nfc p.1 = e.1) = some (e.1, .ok e.2) ∧
                    cps'.find? (fun p => p.1 = e.1) = some (e.1, .ok e.2)) →
    canonMembers nfc cps' (entries.map Prod.fst) =
      .ok (entries.map (fun e => canonicalize_string nfc e.1 ++ [58] ++ e.2)) := by
  intro entries
  induction entries with
  | nil => intro _; rfl
  | cons e rest ih =>
    intro h
    obtain ⟨h1, h2⟩ := h e (List.mem_cons_self _ _)
    rw [List.map_cons, canonMembers_step nfc cps' e.1 _ e.1 e.2 h1 h2,
      ih (fun x hx => h x (List.mem_cons_of_mem e hx))]
    rfl

/-- Computation of element canonicalization from per-element results. -/
theorem canonElems_entries (nfc : List Nat → List Nat) (fr : ℚ → List Nat) :
    ∀ (entries : List (JValue × List Nat)),
    (∀ e ∈ entries, canonicalize_value nfc fr e.1 = .ok e.2) →
    canonElems nfc fr (entries.map Prod.fst) = .ok (entries.map Prod.snd) := by
  intro entries
  induction entries with
  | nil => intro _; rfl
  | cons e rest ih =>
    intro h
    rw [List.map_cons, canonElems, h e (List.mem_cons_self _ _),
      ih (fun x hx => h x (List.mem_cons_of_mem e hx))]
    rfl

/-- Inverse of `canonElems`: a successful run yields per-element encodings. -/
theorem canonElems_inv (nfc : List Nat → List Nat) (fr : ℚ → List Nat) :
    ∀ (xs : List JValue) (es : List (List Nat)),
    canonElems nfc fr xs = .ok es →
    ∃ entries : List (JValue × List Nat),
      entries.map Prod.fst = xs ∧ entries.map Prod.snd = es ∧
      ∀ e ∈ entries, canonicalize_value nfc fr e.1 = .ok e.2 := by
  intro xs
  induction xs with
  | nil =>
    intro es h
    rw [canonElems] at h
    injection h with h1
    exact ⟨[], rfl, by rw [← h1]; rfl, by intro e he; simp at he⟩
  | cons x rest ih =>
    intro es h
    rw [canonElems] at h
    cases hx : canonicalize_value nfc fr x with
    | error e => rw [hx] at h; exact absurd h (by simp [Except.bind])
    | ok c =>
      rw [hx] at h
      cases hrest : canonElems nfc fr rest with
      | error e => rw [hrest] at h; exact absurd h (by simp [Except.bind])
      | ok cs =>
        rw [hrest] at h
        have : es = c :: cs := by
          simp [Except.bind] at h
          exact h.symm
        subst this
        obtain ⟨entries, he1, he2, he3⟩ := ih cs hrest
        refine ⟨(x, c) :: entries, by simp [he1], by simp [he2], ?_⟩
        intro e he
        rcases List.mem_cons.1 he with h | h
        · subst h; exact hx
        · exact he3 e h

/-! ### Further auxiliary lemmas for the round trip -/

theorem find?_map_fst {β γ : Type} (g : List Nat × β → γ) :
    ∀ (ps : List (List Nat × β)) (Q : List Nat → Bool),
    (ps.map (fun p => (p.1, g p))).find? (fun p => Q p.1) =
      (ps.find? (fun p => Q p.1)).map (fun p => (p.1, g p)) := by
  intro ps Q
  induction ps with
  | nil => rfl
  | cons p rest ih =>
    rw [List.map_cons, List.find?_cons, List.find?_cons]
    cases hq : Q p.1
    · simpa using ih
    · rfl

theorem find?_key_nodup {β : Type} :
    ∀ (l : List (List Nat × β)) (p₀ : List Nat × β),
    (l.map Prod.fst).Nodup → p₀ ∈ l →
    l.find? (fun p => p.1 = p₀.1) = some p₀ := by
  intro l
  induction l with
  | nil => intro p₀ _ hm; simp at hm
  | cons p rest ih =>
    intro p₀ hnodup hmem
    rw [List.map_cons] at hnodup
    obtain ⟨hhead, htail⟩ := List.nodup_cons.1 hnodup
    rcases List.mem_cons.1 hmem with h | h
    · subst h
      rw [List.find?_cons_of_pos _ (by simp)]
    · have hne : p.1 ≠ p₀.1 := by
        intro heq
        exact hhead (heq ▸ List.mem_map.2 ⟨p₀, h, rfl⟩)
      rw [List.find?_cons_of_neg _ (by simpa using hne), ih p₀ htail h]

theorem intercalate_count_le (sep : List Nat) :
    ∀ (texts : List (List Nat)), (∀ t ∈ texts, t ≠ []) →
    texts.length ≤ (List.intercalate sep texts).length := by
  intro texts
  induction texts with
  | nil => intro _; simp
  | cons a l ih =>
    intro hne
    cases l with
    | nil =>
      rw [intercalate_single]
      have := hne a (List.mem_cons_self a [])
      cases a with
      | nil => exact absurd rfl this
      | cons c t => simp
    | cons b l' =>
      rw [intercalate_cons2]
      have hrec := ih (fun t ht => hne t (List.mem_cons_of_mem a ht))
      have ha := hne a (List.mem_cons_self _ _)
      have : 1 ≤ a.length := by
        cases a with
        | nil => exact absurd rfl ha
        | cons c t => simp
      simp only [List.length_append, List.length_cons] at *
      omega

theorem intercalate_cons_head (sep : List Nat) (m₀ : List Nat) (mss : List (List Nat))
    (tail : List Nat) (c₀ : Nat) (t₀ : List Nat) (h : m₀ = c₀ :: t₀) :
    ∃ G, List.intercalate sep (m₀ :: mss) ++ tail = c₀ :: G := by
  cases mss with
  | nil => exact ⟨t₀ ++ tail, by rw [intercalate_single, h]; rfl⟩
  | cons b l' =>
    refine ⟨t₀ ++ sep ++ List.intercalate sep (b :: l') ++ tail, ?_⟩
    rw [intercalate_cons2, h]
    simp

theorem pObjStart_go (pmem : Nat → List Nat → List (List Nat × JValue) → Option (JValue × List Nat))
    (R : List Nat) (c : Nat) (t : List Nat) (hR : R = c :: t)
    (hws : isWs c = false) (h125 : c ≠ 125) :
    pObjStart pmem R = pmem (R.length + 1) R [] := by
  subst hR
  rw [pObjStart, skipWs_noop _ (by intro e he; injection he with h1; subst h1; exact hws)]
  split
  · rename_i heq
    injection heq with h1
    exact absurd h1 h125
  · rfl

theorem pArrStart_go (pelem : Nat → List Nat → List JValue → Option (JValue × List Nat))
    (R : List Nat) (c : Nat) (t : List Nat) (hR : R = c :: t)
    (hws : isWs c = false) (h93 : c ≠ 93) :
    pArrStart pelem R = pelem (R.length + 1) R [] := by
  subst hR
  rw [pArrStart, skipWs_noop _ (by intro e he; injection he with h1; subst h1; exact hws)]
  split
  · rename_i heq
    injection heq with h1
    exact absurd h1 h93
  · rfl

theorem intToDec_head (n : Int) :
    ∃ c t, intToDec n = c :: t ∧ (c = 45 ∨ (48 ≤ c ∧ c ≤ 57)) := by
  rw [intToDec]
  split_ifs with hneg
  · exact ⟨45, _, rfl, Or.inl rfl⟩
  · by_cases h0 : n.toNat = 0
    · rw [h0, (natToDec_structure 0).1 rfl]
      exact ⟨48, [], rfl, Or.inr (by omega)⟩
    · obtain ⟨d, ds, heq, hd1, hd2, _⟩ := (natToDec_structure n.toNat).2 (by omega)
      exact ⟨d, ds, heq, Or.inr (by omega)⟩

theorem canonicalize_value_arr (nfc : List Nat → List Nat) (fr : ℚ → List Nat)
    (xs : List JValue) :
    canonicalize_value nfc fr (.arr xs) =
      (canonElems nfc fr xs).bind (fun es =>
        .ok ([91] ++ List.intercalate [44] es ++ [93])) := rfl

/-! ### UTF-8 round trip -/

theorem utf8Decode_cons (b : Nat) (rest : List Nat) :
    utf8Decode (b :: rest) =
    (if b < 128 then (utf8Decode rest).map (fun l => b :: l)
     else if b < 194 then .error ("UnicodeDecodeError")
     else if b < 224 then
       match rest with
       | b2 :: r2 =>
           if 128 ≤ b2 ∧ b2 < 192 then
             (utf8Decode r2).map (fun l => ((b - 192) * 64 + (b2 - 128)) :: l)
           else .error ("UnicodeDecodeError")
       | [] => .error ("UnicodeDecodeError")
     else if b < 240 then
       match rest with
       | b2 :: b3 :: r3 =>
           if (if b = 224 then 160 ≤ b2 ∧ b2 < 192
               else if b = 237 then 128 ≤ b2 ∧ b2 < 160
               else 128 ≤ b2 ∧ b2 < 192) ∧ 128 ≤ b3 ∧ b3 < 192 then
             (utf8Decode r3).map (fun l =>
               ((b - 224) * 4096 + (b2 - 128) * 64 + (b3 - 128)) :: l)
           else .error ("UnicodeDecodeError")
       | _ => .error ("UnicodeDecodeError")
     else if b < 245 then
       match rest with
       | b2 :: b3 :: b4 :: r4 =>
           if (if b = 240 then 144 ≤ b2 ∧ b2 < 192
               else if b = 244 then 128 ≤ b2 ∧ b2 < 144
               else 128 ≤ b2 ∧ b2 < 192) ∧ 128 ≤ b3 ∧ b3 < 192 ∧ 128 ≤ b4 ∧ b4 < 192 then
             (utf8Decode r4).map (fun l =>
               ((b - 240) * 262144 + (b2 - 128) * 4096 + (b3 - 128) * 64 + (b4 - 128)) :: l)
           else .error ("UnicodeDecodeError")
       | _ => .error ("UnicodeDecodeError")
     else .error ("UnicodeDecodeError")) := by
  rcases rest with _ | ⟨b2, _ | ⟨b3, _ | ⟨b4, r4⟩⟩⟩ <;> rfl

theorem utf8EncChar_decode (c : Nat) (l : List Nat) (h : utf8EncChar c = .ok l) :
    ∀ r, utf8Decode (l ++ r) = (utf8Decode r).map (fun xs => c :: xs) := by
  intro r
  rw [utf8EncChar] at h
  split_ifs at h with h1 h2 h3 h4 h5
  · injection h with hl
    subst hl
    rw [List.cons_append, List.nil_append, utf8Decode_cons, if_pos h1]
  · injection h with hl
    subst hl
    rw [List.cons_append, List.cons_append, List.nil_append, utf8Decode_cons]
    rw [if_neg (by omega), if_neg (by omega), if_pos (by omega)]
    split
    · rename_i b2' r2' heq
      injection heq with hb2 hr2
      subst hb2
      subst hr2
      rw [if_pos (by omega)]
      have hval : (192 + c / 64 - 192) * 64 + (128 + c % 64 - 128) = c := by omega
      rw [hval]
    · rename_i heq
      exact absurd heq (by simp)
  · injection h with hl
    subst hl
    rw [List.cons_append, List.cons_append, List.cons_append, List.nil_append, utf8Decode_cons]
    rw [if_neg (by omega), if_neg (by omega), if_neg (by omega), if_pos (by omega)]
    split
    · rename_i b2' b3' r3' heq
      injection heq with hb2 heq2
      injection heq2 with hb3 hr3
      subst hb2
      subst hb3
      subst hr3
      have hcond : (if 224 + c / 4096 = 224 then
            160 ≤ 128 + c / 64 % 64 ∧ 128 + c / 64 % 64 < 192
          else if 224 + c / 4096 = 237 then
            128 ≤ 128 + c / 64 % 64 ∧ 128 + c / 64 % 64 < 160
          else 128 ≤ 128 + c / 64 % 64 ∧ 128 + c / 64 % 64 < 192) ∧
          128 ≤ 128 + c % 64 ∧ 128 + c % 64 < 192 := by
        refine ⟨?_, by omega, by omega⟩
        split_ifs with hb hb'
        · omega
        · omega
        · omega
      rw [if_pos hcond]
      have hval : (224 + c / 4096 - 224) * 4096 + (128 + c / 64 % 64 - 128) * 64 +
          (128 + c % 64 - 128) = c := by omega
      rw [hval]
    · rename_i heq
      exact absurd (heq (128 + c / 64 % 64) (128 + c % 64) r rfl) (by simp)
  · injection h with hl
    subst hl
    rw [List.cons_append, List.cons_append, List.cons_append, List.cons_append,
      List.nil_append, utf8Decode_cons]
    rw [if_neg (by omega), if_neg (by omega), if_neg (by omega), if_neg (by omega),
      if_pos (by omega)]
    split
    · rename_i b2' b3' b4' r4' heq
      injection heq with hb2 heq2
      injection heq2 with hb3 heq3
      injection heq3 with hb4 hr4
      subst hb2
      subst hb3
      subst hb4
      subst hr4
      have hcond : (if 240 + c / 262144 = 240 then
            144 ≤ 128 + c / 4096 % 64 ∧ 128 + c / 4096 % 64 < 192
          else if 240 + c / 262144 = 244 then
            128 ≤ 128 + c / 4096 % 64 ∧ 128 + c / 4096 % 64 < 144
          else 128 ≤ 128 + c / 4096 % 64 ∧ 128 + c / 4096 % 64 < 192) ∧
          128 ≤ 128 + c / 64 % 64 ∧ 128 + c / 64 % 64 < 192 ∧
          128 ≤ 128 + c % 64 ∧ 128 + c % 64 < 192 := by
        refine ⟨?_, by omega, by omega, by omega, by omega⟩
        split_ifs with hb hb'
        · omega
        · omega
        · omega
      rw [if_pos hcond]
      have hval : (240 + c / 262144 - 240) * 262144 + (128 + c / 4096 % 64 - 128) * 4096 +
          (128 + c / 64 % 64 - 128) * 64 + (128 + c % 64 - 128) = c := by omega
      rw [hval]
    · rename_i heq
      exact absurd (heq (128 + c / 4096 % 64) (128 + c / 64 % 64) (128 + c % 64) r rfl)
        (by simp)

theorem utf8_roundtrip : ∀ s bs, utf8Encode s = .ok bs → utf8Decode bs = .ok s := by
  intro s
  induction s with
  | nil =>
    intro bs h
    rw [utf8Encode] at h
    injection h with h1
    rw [← h1]
    rfl
  | cons c rest ihr =>
    intro bs h
    rw [utf8Encode] at h
    cases hc : utf8EncChar c with
    | error e => rw [hc] at h; exact absurd h (by simp [Except.bind])
    | ok bsc =>
      rw [hc] at h
      cases hr : utf8Encode rest with
      | error e => rw [hr] at h; exact absurd h (by simp [Except.bind])
      | ok brest =>
        rw [hr] at h
        have hbs : bs = bsc ++ brest := by
          simp [Except.bind] at h
          exact h.symm
        subst hbs
        rw [utf8EncChar_decode c bsc hc brest, ihr brest hr]
        rfl

/-! ### Idempotence of the modelled NFC fragment -/

theorem nfcModel_nil : nfcModel [] = [] := rfl

theorem nfcModel_pair (rest : List Nat) :
    nfcModel (101 :: 769 :: rest) = 233 :: nfcModel rest := rfl

theorem nfcModel_cons_ne (c : Nat) (r : List Nat)
    (h : ∀ r', ¬(c :: r = 101 :: 769 :: r')) :
    nfcModel (c :: r) = c :: nfcModel r := by
  rw [nfcModel.eq_def]
  split
  · rename_i r' heq
    exact absurd heq (h r')
  · rename_i c' r' hno heq
    injection heq with h1 h2
    rw [h1, h2]
  · rename_i heq
    exact absurd heq (by simp)

theorem nfcModel_head_not_769 :
    ∀ rest, (∀ r', rest ≠ 769 :: r') → ∀ r'', nfcModel rest ≠ 769 :: r'' := by
  intro rest hrest r'' heq
  cases rest with
  | nil =>
    rw [nfcModel_nil] at heq
    exact absurd heq (by simp)
  | cons d dr =>
    by_cases hd : d = 101 ∧ ∃ q, dr = 769 :: q
    · obtain ⟨hd1, q, hq⟩ := hd
      subst hd1
      subst hq
      rw [nfcModel_pair] at heq
      injection heq with h1 _
      omega
    · have hne' : ∀ q, ¬(d :: dr = 101 :: 769 :: q) := by
        intro q hq
        injection hq with a b
        exact hd ⟨a, q, b⟩
      rw [nfcModel_cons_ne d dr hne'] at heq
      injection heq with h1 _
      exact hrest dr (by rw [h1])

theorem nfcModel_idem : ∀ t, nfcModel (nfcModel t) = nfcModel t := by
  have main : ∀ n t, t.length ≤ n → nfcModel (nfcModel t) = nfcModel t := by
    intro n
    induction n with
    | zero =>
      intro t ht
      cases t with
      | nil => rfl
      | cons c r => simp at ht
    | succ n ihn =>
      intro t ht
      cases t with
      | nil => rfl
      | cons c rest =>
        by_cases hpair : c = 101 ∧ ∃ r', rest = 769 :: r'
        · obtain ⟨hc, r', hr⟩ := hpair
          subst hc
          subst hr
          rw [nfcModel_pair]
          rw [nfcModel_cons_ne 233 _ (by intro r'' heq; injection heq with h1 _; omega)]
          rw [ihn r' (by simp at ht; omega)]
        · have hne : ∀ r', ¬(c :: rest = 101 :: 769 :: r') := by
            intro r' heq
            injection heq with h1 h2
            exact hpair ⟨h1, r', h2⟩
          rw [nfcModel_cons_ne c rest hne]
          have hne2 : ∀ r'', ¬(c :: nfcModel rest = 101 :: 769 :: r'') := by
            intro r'' heq
            injection heq with hc1 hc2
            subst hc1
            have hrest769 : ∀ r', rest ≠ 769 :: r' := by
              intro r' hr'
              exact hpair ⟨rfl, r', hr'⟩
            exact nfcModel_head_not_769 rest hrest769 r'' hc2
          rw [nfcModel_cons_ne c _ hne2]
          rw [ihn rest (by simp at ht; omega)]
  intro t
  exact main t.length t le_rfl

/-! ### The canonicalize-then-reparse round trip -/

theorem canonMembers_step_gen (nfc : List Nat → List Nat)
    (cps' : List (List Nat × Except String (List Nat)))
    (key : List Nat) (rest : List (List Nat)) (k : List Nat)
    (ex : Except String (List Nat))
    (hfind1 : cps'.find? (fun p => nfc p.1 = key) = some (k, ex))
    (hfind2 : cps'.find? (fun p => p.1 = k) = some (k, ex)) :
    canonMembers nfc cps' (key :: rest) =
      ex.bind (fun cv => (canonMembers nfc cps' rest).map (fun ms =>
        (canonicalize_string nfc key ++ [58] ++ cv) :: ms)) := by
  rw [canonMembers]
  rw [hfind1]
  simp only [hfind2]
  cases ex with
  | error e =>
    simp [Bind.bind, Except.bind]
  | ok c =>
    cases h : canonMembers nfc cps' rest <;>
      simp [Bind.bind, Except.bind, Except.map, Pure.pure, Except.pure, h]

set_option maxHeartbeats 1000000 in
theorem reparse_master (nfc : List Nat → List Nat) (fr : ℚ → List Nat)
    (hid : ∀ t, nfc (nfc t) = nfc t) :
    ∀ v, CanonSafe nfc fr v → ∀ s, canonicalize_value nfc fr v = .ok s →
      (∃ c t, s = c :: t ∧ isWs c = false ∧ c ≠ 93) ∧
      ∃ w, canonicalize_value nfc fr w = .ok s ∧
        ∀ rest fuel, Delim rest → s.length < fuel →
          pVal fuel (s ++ rest) = some (w, rest) := by
  intro v hsafe
  induction hsafe with
  | null =>
    intro s h
    injection h with h1
    subst h1
    refine ⟨⟨110, _, rfl, rfl, by omega⟩, .null, rfl, ?_⟩
    intro rest fuel _ hfuel
    match fuel, hfuel with
    | fuel + 1, _ => exact pVal_null fuel rest
  | bool b =>
    intro s h
    cases b <;> (injection h with h1; subst h1)
    · refine ⟨⟨102, _, rfl, rfl, by omega⟩, .bool false, rfl, ?_⟩
      intro rest fuel _ hfuel
      match fuel, hfuel with
      | fuel + 1, _ => exact pVal_false fuel rest
    · refine ⟨⟨116, _, rfl, rfl, by omega⟩, .bool true, rfl, ?_⟩
      intro rest fuel _ hfuel
      match fuel, hfuel with
      | fuel + 1, _ => exact pVal_true fuel rest
  | int n =>
    intro s h
    injection h with h1
    subst h1
    obtain ⟨c, t, heq, hc⟩ := intToDec_head n
    refine ⟨⟨c, t, heq, by simp [isWs]; omega, by omega⟩, .int n, rfl, ?_⟩
    intro rest fuel hrest hfuel
    match fuel, hfuel with
    | fuel + 1, _ => exact pVal_int fuel n rest (delim_numStop rest hrest)
  | floatInt q hden habs =>
    intro s h
    by_cases hq : q = 0
    · subst hq
      have hs : s = cps ("0") := by
        rw [show canonicalize_value nfc fr (.float (.finite 0)) =
          canonicalize_number_float fr (.finite 0) from rfl] at h
        rw [canonicalize_number_float, if_pos rfl] at h
        injection h with h1
        exact h1.symm
      subst hs
      refine ⟨⟨48, [], rfl, rfl, by omega⟩, .int 0, rfl, ?_⟩
      intro rest fuel hrest hfuel
      match fuel, hfuel with
      | fuel + 1, _ => exact pVal_int fuel 0 rest (delim_numStop rest hrest)
    · have hs : s = intToDec q.num := by
        rw [show canonicalize_value nfc fr (.float (.finite q)) =
          canonicalize_number_float fr (.finite q) from rfl] at h
        rw [canonicalize_number_float, if_neg hq, if_pos ⟨hden, habs⟩] at h
        injection h with h1
        exact h1.symm
      subst hs
      obtain ⟨c, t, heq, hc⟩ := intToDec_head q.num
      refine ⟨⟨c, t, heq, by simp [isWs]; omega, by omega⟩, .int q.num, rfl, ?_⟩
      intro rest fuel hrest hfuel
      match fuel, hfuel with
      | fuel + 1, _ => exact pVal_int fuel q.num rest (delim_numStop rest hrest)
  | floatRepr q hcond htok =>
    intro s h
    have hq : q ≠ 0 := by
      intro h0
      exact hcond (by rw [h0]; constructor <;> simp)
    have hs : s = stripDot0 (fr q) := by
      rw [show canonicalize_value nfc fr (.float (.finite q)) =
        canonicalize_number_float fr (.finite q) from rfl] at h
      rw [canonicalize_number_float, if_neg hq, if_neg hcond] at h
      injection h with h1
      exact h1.symm
    subst hs
    obtain ⟨⟨c, t', heq, hc⟩, hparse⟩ := htok
    refine ⟨⟨c, t', heq, by simp [isWs]; omega, by omega⟩, .float (.finite q), ?_, ?_⟩
    · show canonicalize_number_float fr (.finite q) = _
      rw [canonicalize_number_float, if_neg hq, if_neg hcond]
    · intro rest fuel hrest hfuel
      match fuel, hfuel with
      | fuel + 1, _ =>
        exact pVal_floatTok fuel _ q rest ⟨⟨c, t', heq, hc⟩, hparse⟩ (delim_numStop rest hrest)
  | str s0 =>
    intro s h
    injection h with h1
    subst h1
    refine ⟨⟨34, _, by rw [canonicalize_string]; rfl, rfl, by omega⟩,
      .str (nfc s0), ?_, ?_⟩
    · show Except.ok (canonicalize_string nfc (nfc s0)) = _
      rw [canonicalize_string, canonicalize_string, hid]
    · intro rest fuel _ hfuel
      match fuel, hfuel with
      | fuel + 1, _ =>
        rw [show canonicalize_string nfc s0 = [34] ++ escBody (nfc s0) ++ [34] from rfl]
        exact pVal_str fuel (nfc s0) rest
  | arr xs hxs ih =>
    intro s h
    rw [canonicalize_value_arr] at h
    cases hes : canonElems nfc fr xs with
    | error e => rw [hes] at h; exact absurd h (by simp [Except.bind])
    | ok es =>
      rw [hes] at h
      have hs : s = [91] ++ List.intercalate [44] es ++ [93] := by
        simp [Except.bind] at h
        exact h.symm
      subst hs
      obtain ⟨entries, hfst, hsnd, hcanon⟩ := canonElems_inv nfc fr xs es hes
      have build : ∀ entries' : List (JValue × List Nat),
          (∀ e ∈ entries', e.1 ∈ xs ∧ canonicalize_value nfc fr e.1 = .ok e.2) →
          ∃ items : List (JValue × List Nat),
            items.map Prod.snd = entries'.map Prod.snd ∧
            ∀ it ∈ items, canonicalize_value nfc fr it.1 = .ok it.2 ∧
              (∃ c t, it.2 = c :: t ∧ isWs c = false ∧ c ≠ 93) ∧
              ∀ r' fuel', Delim r' → it.2.length < fuel' →
                pVal fuel' (it.2 ++ r') = some (it.1, r') := by
        intro entries'
        induction entries' with
        | nil => exact fun _ => ⟨[], rfl, by intro it hit; simp at hit⟩
        | cons e rest ihb =>
          intro hall
          obtain ⟨hmem, hcanonE⟩ := hall e (List.mem_cons_self _ _)
          obtain ⟨hhead, w, hw, hparse⟩ := ih e.1 hmem e.2 hcanonE
          obtain ⟨items, hits, hprop⟩ := ihb (fun x hx => hall x (List.mem_cons_of_mem _ hx))
          refine ⟨(w, e.2) :: items, by simp [hits], ?_⟩
          intro it hit
          rcases List.mem_cons.1 hit with hh | hh
          · subst hh
            exact ⟨hw, hhead, hparse⟩
          · exact hprop it hh
      obtain ⟨items, hsnditems, hprops⟩ := build entries
        (fun e he => ⟨by rw [← hfst]; exact List.mem_map.2 ⟨e, he, rfl⟩, hcanon e he⟩)
      have hest : items.map Prod.snd = es := by rw [hsnditems, hsnd]
      refine ⟨⟨91, List.intercalate [44] es ++ [93], by simp, rfl, by omega⟩,
        .arr (items.map Prod.fst), ?_, ?_⟩
      · rw [canonicalize_value_arr,
          canonElems_entries nfc fr items (fun it hit => (hprops it hit).1), hest]
        rfl
      · intro rest fuel hrest hfuel
        match fuel, hfuel with
        | f + 1, hfuel =>
          have hsr : ([91] ++ List.intercalate [44] es ++ [93]) ++ rest =
              91 :: (List.intercalate [44] es ++ 93 :: rest) := by simp
          rw [hsr, pVal, if_neg (by omega), if_neg (by omega), if_pos rfl]
          cases hitems : items with
          | nil =>
            rw [hitems] at hest
            rw [← hest]
            rfl
          | cons it0 items' =>
            rw [hitems] at hest hprops
            obtain ⟨hc0canon, ⟨c0, t0, heq0, hws0, h93_0⟩, hparse0⟩ :=
              hprops it0 (List.mem_cons_self _ _)
            rw [← hest]
            obtain ⟨G, hG⟩ := intercalate_cons_head [44] it0.2 (items'.map Prod.snd)
              (93 :: rest) c0 t0 heq0
            rw [show (it0 :: items').map Prod.snd = it0.2 :: items'.map Prod.snd from rfl]
            rw [pArrStart_go _ _ c0 G hG hws0 h93_0]
            have hne_texts : ∀ t ∈ (it0 :: items').map Prod.snd, t ≠ [] := by
              intro t ht
              obtain ⟨it, hitmem, hiteq⟩ := List.mem_map.1 ht
              obtain ⟨_, ⟨c', t', heq', _, _⟩, _⟩ := hprops it hitmem
              rw [← hiteq, heq']
              simp
            have hcount := intercalate_count_le [44] ((it0 :: items').map Prod.snd) hne_texts
            have hflen : items'.length <
                (List.intercalate [44] (it0.2 :: items'.map Prod.snd) ++ 93 :: rest).length := by
              rw [List.length_append, List.length_cons]
              simp only [List.map_cons, List.length_cons] at hcount
              simp only [List.length_map] at hcount ⊢
              omega
            have hitemsok : ItemsOK (pVal f) (it0 :: items') := by
              intro it hitmem
              obtain ⟨hc, hh, hp⟩ := hprops it hitmem
              refine ⟨by obtain ⟨c', t', heq', hws', _⟩ := hh; exact ⟨c', t', heq', hws'⟩, ?_⟩
              intro r' hr'
              apply hp r' f hr'
              have hmemtext : it.2 ∈ (it0 :: items').map Prod.snd :=
                List.mem_map.2 ⟨it, hitmem, rfl⟩
              have hlentext := length_le_intercalate [44] _ it.2 hmemtext
              rw [hest] at hlentext
              simp only [List.length_append, List.length_cons, List.length_nil] at hfuel
              omega
            have hgo := pElemsF_go (pVal f) items' it0 []
              (List.intercalate [44] (it0.2 :: items'.map Prod.snd) ++ 93 :: rest).length
              rest hitemsok hflen
            simp only [List.map_cons] at hgo
            rw [show (it0.2 :: List.map Prod.snd items') =
              it0.2 :: items'.map Prod.snd from rfl] at hgo
            rw [hgo]
            simp
  | obj ps hnodup hps ih =>
    intro s h
    rw [canonicalize_value_obj] at h
    cases hms : canonMembers nfc (canonPairs nfc fr ps) (objKeyOrder nfc ps) with
    | error e => rw [hms] at h; exact absurd h (by simp [Except.bind])
    | ok ms =>
      rw [hms] at h
      have hs : s = [123] ++ List.intercalate [44] ms ++ [125] := by
        simp [Except.bind] at h
        exact h.symm
      subst hs
      have hnodup_raw : (ps.map Prod.fst).Nodup := by
        have h2 : ps.map (fun p => nfc p.1) = (ps.map Prod.fst).map nfc := by
          rw [List.map_map]
          rfl
        exact List.Nodup.of_map nfc (h2 ▸ hnodup)
      have extract : ∀ keys : List (List Nat),
          (∀ k ∈ keys, k ∈ ps.map (fun p => nfc p.1)) →
          ∀ ms', canonMembers nfc (canonPairs nfc fr ps) keys = .ok ms' →
          ∃ items : List ((List Nat × JValue) × List Nat),
            items.map (fun it => it.1.1) = keys ∧
            items.map memberText = ms' ∧
            ∀ it ∈ items, nfc it.1.1 = it.1.1 ∧
              canonicalize_value nfc fr it.1.2 = .ok it.2 ∧
              (∃ c t, it.2 = c :: t ∧ isWs c = false) ∧
              ∀ r' fuel', Delim r' → it.2.length < fuel' →
                pVal fuel' (it.2 ++ r') = some (it.1.2, r') := by
        intro keys
        induction keys with
        | nil =>
          intro _ ms' hms'
          rw [canonMembers_nil] at hms'
          injection hms' with h1
          exact ⟨[], rfl, by rw [← h1]; rfl, by intro it hit; simp at hit⟩
        | cons k krest ihk =>
          intro hin ms' hms'
          obtain ⟨p₀, hfind₀, hnfck, hmem₀⟩ :=
            find?_mem_map ps (fun p => nfc p.1) k (hin k (List.mem_cons_self _ _))
          have hf1 : (canonPairs nfc fr ps).find? (fun p => nfc p.1 = k) =
              some (p₀.1, canonicalize_value nfc fr p₀.2) := by
            rw [canonPairs_map,
              find?_map_fst (fun p => canonicalize_value nfc fr p.2) ps
                (fun x => decide (nfc x = k)), hfind₀]
            rfl
          have hraw : ps.find? (fun p => p.1 = p₀.1) = some p₀ :=
            find?_key_nodup ps p₀ hnodup_raw hmem₀
          have hf2 : (canonPairs nfc fr ps).find? (fun p => p.1 = p₀.1) =
              some (p₀.1, canonicalize_value nfc fr p₀.2) := by
            rw [canonPairs_map,
              find?_map_fst (fun p => canonicalize_value nfc fr p.2) ps
                (fun x => decide (x = p₀.1)), hraw]
            rfl
          rw [canonMembers_step_gen nfc _ k krest p₀.1 _ hf1 hf2] at hms'
          cases hc : canonicalize_value nfc fr p₀.2 with
          | error e =>
            rw [hc] at hms'
            exact absurd hms' (by simp [Except.bind])
          | ok c =>
            rw [hc] at hms'
            cases hr : canonMembers nfc (canonPairs nfc fr ps) krest with
            | error e =>
              rw [hr] at hms'
              exact absurd hms' (by simp [Except.bind, Except.map])
            | ok msr =>
              rw [hr] at hms'
              have hms'eq : ms' = (canonicalize_string nfc k ++ 58 :: c) :: msr := by
                simp [Except.bind, Except.map] at hms'
                exact hms'.symm
              obtain ⟨items, hkeys, htexts, hprops⟩ :=
                ihk (fun k' hk' => hin k' (List.mem_cons_of_mem _ hk')) msr hr
              obtain ⟨⟨c₀, t₀, heq₀, hws₀, _⟩, w, hw, hparse⟩ := ih p₀ hmem₀ c hc
              have hkfix1 : nfc k = k := by
                rw [← hnfck, hid]
              refine ⟨((k, w), c) :: items, by simp [hkeys], ?_, ?_⟩
              · rw [List.map_cons, htexts, hms'eq]
                congr 1
                simp [memberText, canonicalize_string, hkfix1]
              · intro it hit
                rcases List.mem_cons.1 hit with hh | hh
                · subst hh
                  exact ⟨hkfix1, hw, ⟨c₀, t₀, heq₀, hws₀⟩, hparse⟩
                · exact hprops it hh
      have hKin : ∀ k ∈ objKeyOrder nfc ps, k ∈ ps.map (fun p => nfc p.1) := by
        intro k hk
        exact (sSort_perm utf16le (ps.map (fun p => nfc p.1))).mem_iff.1 hk
      obtain ⟨items, hkeys, htexts, hprops⟩ := extract (objKeyOrder nfc ps) hKin ms hms
      have hkfix : ∀ it ∈ items, nfc it.1.1 = it.1.1 := fun it hit => (hprops it hit).1
      have hKnodup : (objKeyOrder nfc ps).Nodup :=
        ((sSort_perm utf16le _).nodup_iff).2 hnodup
      refine ⟨⟨123, List.intercalate [44] ms ++ [125], by simp, rfl, by omega⟩,
        .obj (items.map (fun it => it.1)), ?_, ?_⟩
      · rw [canonicalize_value_obj]
        have hkeymap : ((items.map (fun it => it.1)).map (fun p => nfc p.1)) =
            objKeyOrder nfc ps := by
          rw [List.map_map, ← hkeys]
          apply List.map_congr_left
          intro it hit
          exact hkfix it hit
        have hKpairwise : (objKeyOrder nfc ps).Pairwise (fun a b => utf16le a b = true) :=
          sSort_pairwise utf16le utf16le_total utf16le_trans _
        have hsorted : objKeyOrder nfc (items.map (fun it => it.1)) = objKeyOrder nfc ps := by
          rw [objKeyOrder, hkeymap, sSort_id utf16le _ hKpairwise]
        rw [hsorted]
        have hcps : canonPairs nfc fr (items.map (fun it => it.1)) =
            items.map (fun it => (it.1.1, Except.ok it.2)) := by
          rw [canonPairs_map, List.map_map]
          apply List.map_congr_left
          intro it hit
          show (it.1.1, canonicalize_value nfc fr it.1.2) = (it.1.1, Except.ok it.2)
          rw [(hprops it hit).2.1]
        rw [hcps]
        have hK_as_map : objKeyOrder nfc ps =
            (items.map (fun it => (it.1.1, it.2))).map Prod.fst := by
          rw [List.map_map, ← hkeys]
          rfl
        rw [hK_as_map]
        rw [canonMembers_entries nfc _ (items.map (fun it => (it.1.1, it.2))) ?_]
        · have htexts2 : (items.map (fun it => (it.1.1, it.2))).map
              (fun e => canonicalize_string nfc e.1 ++ [58] ++ e.2) = ms := by
            rw [List.map_map, ← htexts]
            apply List.map_congr_left
            intro it hit
            show canonicalize_string nfc it.1.1 ++ [58] ++ it.2 = memberText it
            simp [memberText, canonicalize_string, hkfix it hit]
          rw [htexts2]
          rfl
        · intro e he
          obtain ⟨it, hit, heq⟩ := List.mem_map.1 he
          subst heq
          have hmem2 : ((it.1.1, Except.ok it.2) :
              List Nat × Except String (List Nat)) ∈
              items.map (fun it =>
                (it.1.1, (Except.ok it.2 : Except String (List Nat)))) :=
            List.mem_map.2 ⟨it, hit, rfl⟩
          have hnodup2 : ((items.map (fun it =>
              (it.1.1, (Except.ok it.2 : Except String (List Nat))))).map
              Prod.fst).Nodup := by
            rw [List.map_map]
            have h3 : items.map (Prod.fst ∘ fun it =>
                (it.1.1, (Except.ok it.2 : Except String (List Nat)))) =
                items.map (fun it => it.1.1) := rfl
            rw [h3, hkeys]
            exact hKnodup
          have hfix2 : ∀ p ∈ items.map (fun it =>
              (it.1.1, (Except.ok it.2 : Except String (List Nat)))),
              nfc p.1 = p.1 := by
            intro p hp
            obtain ⟨it', hit', heq'⟩ := List.mem_map.1 hp
            rw [← heq']
            exact hkfix it' hit'
          exact find?_assoc_distinct nfc _ it.1.1 (.ok it.2) hnodup2 hmem2 hfix2
      · intro rest fuel hrest hfuel
        match fuel, hfuel with
        | f + 1, hfuel =>
          have hsr : ([123] ++ List.intercalate [44] ms ++ [125]) ++ rest =
              123 :: (List.intercalate [44] ms ++ 125 :: rest) := by simp
          rw [hsr, pVal, if_neg (by omega), if_pos rfl]
          cases hitems : items with
          | nil =>
            rw [hitems] at htexts
            have hms0 : ms = [] := htexts.symm
            rw [hms0]
            rfl
          | cons it0 items' =>
            rw [hitems] at htexts hprops
            rw [← htexts, List.map_cons]
            obtain ⟨t34, ht34⟩ := memberText_head it0
            obtain ⟨G, hG⟩ := intercalate_cons_head [44] (memberText it0)
              (items'.map memberText) (125 :: rest) 34 t34 ht34
            rw [pObjStart_go _ _ 34 G hG rfl (by omega)]
            have hne_texts : ∀ t ∈ (it0 :: items').map memberText, t ≠ [] := by
              intro t ht
              obtain ⟨it, hitmem, hiteq⟩ := List.mem_map.1 ht
              obtain ⟨t', ht'⟩ := memberText_head it
              rw [← hiteq, ht']
              simp
            have hcount := intercalate_count_le [44] ((it0 :: items').map memberText) hne_texts
            have hflen : items'.length <
                (List.intercalate [44] (memberText it0 :: items'.map memberText)
                  ++ 125 :: rest).length := by
              rw [List.length_append, List.length_cons]
              simp only [List.map_cons, List.length_cons] at hcount
              simp only [List.length_map] at hcount ⊢
              omega
            have hitemsok : MItemsOK (pVal f) (it0 :: items') := by
              intro it hitmem
              obtain ⟨_, _, hh, hp⟩ := hprops it hitmem
              refine ⟨hh, ?_⟩
              intro r' hr'
              apply hp r' f hr'
              have hmemtext : memberText it ∈ (it0 :: items').map memberText :=
                List.mem_map.2 ⟨it, hitmem, rfl⟩
              have hlentext := length_le_intercalate [44] _ (memberText it) hmemtext
              rw [htexts] at hlentext
              have hmlen : it.2.length ≤ (memberText it).length := by
                simp [memberText]
                omega
              simp only [List.length_append, List.length_cons, List.length_nil] at hfuel
              omega
            have hgo := pMembersF_go (pVal f) items' it0 []
              (List.intercalate [44] (memberText it0 :: items'.map memberText)
                ++ 125 :: rest).length rest hitemsok hflen
            simp only [List.map_cons] at hgo
            rw [hgo]
            have hfold := foldl_dictUpsert_fresh (it0 :: items') []
              (by rw [show (it0 :: items').map (fun it => it.1.1) =
                    List.map (fun it => it.1.1) (it0 :: items') from rfl]
                  rw [hitems] at hkeys
                  rw [hkeys]
                  exact hKnodup)
              (by intro it _; simp)
            rw [hfold]
            rfl

/-! ### Claim C6: idempotence -/

/-- C6 (amended): idempotence fails in general (see the counterexample: an
object whose distinct raw keys collide after NFC normalization canonicalizes
to bytes that re-canonicalize to different bytes), but it holds under the
conditions of `CanonSafe` — keys pairwise distinct after NFC normalization
and floats zero, integer-valued within `2^53`, or carrying a reparseable
printed form — together with idempotence of the normalizer itself: if
`canonicalize` succeeds on such a value, then running `canonicalize_bytes`
on the produced canonical bytes reproduces exactly those bytes. -/
theorem c6_amended_idempotent_safe (nfc : List Nat → List Nat) (fr : ℚ → List Nat)
    (hid : ∀ t, nfc (nfc t) = nfc t) (v : JValue) (hsafe : CanonSafe nfc fr v)
    (bytes : List Nat) (h : canonicalize nfc fr v = .ok bytes) :
    canonicalize_bytes nfc fr bytes = .ok bytes := by
  rw [canonicalize] at h
  cases hcv : canonicalize_to_string nfc fr v with
  | error e => rw [hcv] at h; exact absurd h (by simp [Except.bind])
  | ok s =>
    rw [hcv] at h
    have henc : utf8Encode s = .ok bytes := h
    obtain ⟨⟨c, t, hs, hws, _⟩, w, hw, hparse⟩ :=
      reparse_master nfc fr hid v hsafe s hcv
    rw [canonicalize_bytes, utf8_roundtrip s bytes henc]
    show (loads s).bind (fun v => canonicalize nfc fr v) = .ok bytes
    have hload : loads s = .ok w := by
      rw [loads]
      have hsk : skipWs s = s := skipWs_noop s (by
        intro e he
        rw [hs] at he
        injection he with h1
        rw [h1] at hws
        exact hws)
      rw [hsk]
      have hp := hparse [] (s.length + 1) (Or.inl rfl) (by omega)
      rw [List.append_nil] at hp
      rw [hp]
      rfl
    rw [hload]
    show canonicalize nfc fr w = .ok bytes
    rw [canonicalize]
    show (canonicalize_value nfc fr w).bind utf8Encode = .ok bytes
    rw [hw]
    exact henc

theorem c6_amended_witness :
    (∀ t, nfcModel (nfcModel t) = nfcModel t) ∧
    CanonSafe nfcModel (fun _ => []) (.obj [([101, 769], .int 1)]) ∧
    canonicalize nfcModel (fun _ => []) (.obj [([101, 769], .int 1)]) =
      .ok [123, 34, 195, 169, 34, 58, 49, 125] ∧
    canonicalize_bytes nfcModel (fun _ => [])
        [123, 34, 195, 169, 34, 58, 49, 125] =
      .ok [123, 34, 195, 169, 34, 58, 49, 125] :=
  ⟨nfcModel_idem,
   CanonSafe.obj _ (by simp) (by
     intro p hp
     simp at hp
     rw [hp]
     exact CanonSafe.int 1),
   rfl,
   c6_amended_idempotent_safe nfcModel (fun _ => []) nfcModel_idem
     (.obj [([101, 769], .int 1)])
     (CanonSafe.obj _ (by simp) (by
       intro p hp
       simp at hp
       rw [hp]
       exact CanonSafe.int 1))
     [123, 34, 195, 169, 34, 58, 49, 125] rfl⟩

/-- C6 counterexample: the object with the two distinct raw keys
U+00E9 and U+0065 U+0301 — which collide after NFC — canonicalizes
successfully to the bytes of an object that repeats the normalized key, and
`canonicalize_bytes` on those bytes yields strictly shorter output: the
duplicate member is collapsed, so `canonicalize_bytes(canonicalize(v))`
differs from `canonicalize(v)`. -/
theorem c6_counterexample_collision :
    canonicalize nfcModel (fun _ => [])
        (.obj [([233], .int 1), ([101, 769], .int 2)]) =
      .ok [123, 34, 195, 169, 34, 58, 49, 44, 34, 195, 169, 34, 58, 49, 125] ∧
    canonicalize_bytes nfcModel (fun _ => [])
        [123, 34, 195, 169, 34, 58, 49, 44, 34, 195, 169, 34, 58, 49, 125] =
      .ok [123, 34, 195, 169, 34, 58, 49, 125] ∧
    ([123, 34, 195, 169, 34, 58, 49, 44, 34, 195, 169, 34, 58, 49, 125] : List Nat) ≠
      [123, 34, 195, 169, 34, 58, 49, 125] :=
  ⟨rfl, rfl, by decide⟩

end KeonJCS
